import Mathlib

/-!
Verification development for the DocuMind backend (hybrid retrieval engine and
streaming answer-generation pipeline).  The Python sources under
`backend/services/llm_chain.py`, `backend/services/retriever.py` and
`backend/main.py` are shallowly embedded as executable Lean definitions, and the
behavioural claims of the specification are settled as theorems about those
definitions.  Strings are modelled as `List Char`; machine integers as `Int`/`Nat`.
-/

namespace DocuMind

/-! ## Python-style text primitives

`str.strip()` and the regular-expression search `\bCitationTool\b` (with
`re.IGNORECASE`) used by `_sanitize_answer_text` / `_contains_citation_tool_marker`
in `llm_chain.py`.  Word characters follow the ASCII `\w` class. -/

/-- The whitespace characters stripped by Python's `str.strip()` (ASCII range). -/
def pyIsSpace (c : Char) : Bool :=
  c = ' ' || c = '\t' || c = '\n' || c = '\r' || c = Char.ofNat 11 || c = Char.ofNat 12

/-- ASCII `\w`: letters, digits and underscore. -/
def isWordChar (c : Char) : Bool :=
  c.isAlphanum || c = '_'

/-- Case folding used to model `re.IGNORECASE`. -/
def lowCh (c : Char) : Char := c.toLower

def lowAll (s : List Char) : List Char := s.map lowCh

/-- The internal side-channel marker `"CitationTool"`, lower-cased. -/
def markerL : List Char := ['c', 'i', 't', 'a', 't', 'i', 'o', 'n', 't', 'o', 'o', 'l']

/-- `marker_guard_length = len("CitationTool") - 1` from `stream_answer_events`. -/
def markerGuardLength : Nat := 11

/-- Python `s.lstrip()` on a character list. -/
def lstrip (s : List Char) : List Char := s.dropWhile pyIsSpace

/-- Python `s.rstrip()` on a character list. -/
def rstrip (s : List Char) : List Char := (s.reverse.dropWhile pyIsSpace).reverse

/-- Python `s.strip()` on a character list. -/
def pyStrip (s : List Char) : List Char := rstrip (lstrip s)

/-- A case-insensitive occurrence of the marker starting at index `p` of `s`
(no word-boundary requirement). -/
def occB (s : List Char) (p : Nat) : Bool :=
  decide (lowAll ((s.drop p).take 12) = markerL)

/-- Whether the character at index `i` is a word character; out-of-range indices
count as non-word, which matches `\b` holding at either end of the string. -/
def wordAtB (s : List Char) (i : Nat) : Bool :=
  isWordChar (s.getD i ' ')

/-- A whole-word, case-insensitive match of `\bCitationTool\b` at index `p`. -/
def matchAtB (s : List Char) (p : Nat) : Bool :=
  occB s p && (decide (p = 0) || !wordAtB s (p - 1)) && !wordAtB s (p + 12)

/-- Left-to-right scan for the first whole-word marker match (fuel-driven so
that it reduces definitionally). -/
def searchFromAux (s : List Char) : Nat → Nat → Option Nat
  | 0, _ => none
  | fuel + 1, p =>
    if p < s.length then
      if matchAtB s p then some p else searchFromAux s fuel (p + 1)
    else none

/-- Left-to-right scan for the first whole-word marker match, starting at `p`;
this models `re.search(r"\bCitationTool\b", s, re.IGNORECASE)`. -/
def searchFrom (s : List Char) (p : Nat) : Option Nat :=
  searchFromAux s (s.length - p) p

/-- Index of the first whole-word marker match, if any. -/
def firstMatch (s : List Char) : Option Nat := searchFrom s 0

/-- `_sanitize_answer_text`: truncate at the first whole-word marker match and
strip surrounding whitespace. -/
def sanitizeAnswerText (s : List Char) : List Char :=
  match firstMatch s with
  | some p => pyStrip (s.take p)
  | none => pyStrip s

/-- `_contains_citation_tool_marker`. -/
def containsCitationToolMarker (s : List Char) : Bool :=
  (firstMatch s).isSome

/-- Length of the leading-whitespace run of `s`. -/
def lsLen (s : List Char) : Nat := (s.takeWhile pyIsSpace).length

/-- The truncation point used by `sanitizeAnswerText`: the first whole-word
marker match, or the end of the string. -/
def truncPoint (s : List Char) : Nat := (firstMatch s).getD s.length

/-! ## Citations and documents (`schemas.py`, `llm_chain.py`) -/

structure CitationMeta where
  document_id : List Char
  filename : String
  page_number : Int
deriving DecidableEq, Repr

structure CitationM where
  source_text : List Char
  metadata : CitationMeta
deriving DecidableEq, Repr

/-- The metadata dictionary of a retrieved chunk, with the keys the pipeline
reads; a missing key is `none`. -/
structure DocMeta where
  document_id : Option (List Char)
  chunk_id : Option (List Char)
  filename : Option String
  source : Option String
  page_number : Option Int
  page : Option Int
deriving DecidableEq, Repr

structure DocumentM where
  page_content : List Char
  metadata : DocMeta
deriving DecidableEq, Repr

structure ChatResponseM where
  answer : List Char
  citations : List CitationM
deriving DecidableEq, Repr

/-- Python `a or b` on optional strings: `None` and `""` are falsy. -/
def pyOrStr (a b : Option (List Char)) : Option (List Char) :=
  match a with
  | some s => if s = [] then b else some s
  | none => b

/-- Python `a or b` on optional strings (`String` form). -/
def pyOrStrS (a b : Option String) : Option String :=
  match a with
  | some s => if s = "" then b else some s
  | none => b

/-- Python `a or b` on optional integers: `None` and `0` are falsy. -/
def pyOrInt (a b : Option Int) : Option Int :=
  match a with
  | some i => if i = 0 then b else some i
  | none => b

def zerosUuid : List Char := "00000000-0000-0000-0000-000000000000".toList

/-- `_coerce_document_id`; `uuidCanon` abstracts Python's `uuid.UUID` parser and
canonical printer (`some` on a valid UUID string, `none` otherwise). -/
def coerceDocumentId (uuidCanon : List Char → Option (List Char))
    (rawId : Option (List Char)) : List Char :=
  match rawId with
  | none => zerosUuid
  | some r =>
    let value := pyStrip r
    if value = [] then zerosUuid
    else
      match uuidCanon value with
      | some canonical => canonical
      | none => zerosUuid

/-- `_coerce_page_number` on the typed metadata model: `None` coerces to 0. -/
def coercePageNumber (rawPage : Option Int) : Int := rawPage.getD 0

/-- `_fallback_citations_from_docs`: deterministic citations synthesized from the
top `maxItems` retrieved chunks, skipping whitespace-only chunks and truncating
each snippet to 600 characters. -/
def fallbackCitationsFromDocs (uuidCanon : List Char → Option (List Char))
    (retrievedDocs : List DocumentM) (maxItems : Nat := 3) : List CitationM :=
  (retrievedDocs.take maxItems).foldl
    (fun acc doc =>
      let snippet := pyStrip doc.page_content
      if snippet = [] then acc
      else
        acc ++ [{ source_text := snippet.take 600,
                  metadata :=
                    { document_id := coerceDocumentId uuidCanon
                        (pyOrStr doc.metadata.document_id doc.metadata.chunk_id),
                      filename := (pyOrStrS (pyOrStrS doc.metadata.filename doc.metadata.source)
                        (some "unknown")).getD "unknown",
                      page_number := coercePageNumber
                        (pyOrInt doc.metadata.page_number doc.metadata.page) } }])
    []

/-! ## Tool-call fragment accumulation (`_accumulate_tool_call_args`,
`_parse_citations_from_buffers`) -/

/-- The `args` field of a streamed tool-call fragment: a string piece, a dict
(carried as its `json.dumps` serialization), or anything else (skipped). -/
inductive ToolArgs where
  | strArgs (s : List Char)
  | dictArgs (serialized : List Char)
  | noArgs
deriving DecidableEq

structure ToolCallChunk where
  name : Option String
  index : Option Int
  args : ToolArgs
deriving DecidableEq

/-- One streamed model chunk: visible text plus tool-call fragments. -/
structure StreamChunk where
  text : List Char
  toolChunks : List ToolCallChunk
deriving DecidableEq

def argsToPiece : ToolArgs → Option (List Char)
  | .strArgs s => some s
  | .dictArgs s => some s
  | .noArgs => none

/-- `buffers[key] = buffers.get(key, "") + piece` on an insertion-ordered map. -/
def bufUpdate (buffers : List (Int × List Char)) (key : Int) (piece : List Char) :
    List (Int × List Char) :=
  if buffers.any (fun e => e.1 = key) then
    buffers.map (fun e => if e.1 = key then (e.1, e.2 ++ piece) else e)
  else buffers ++ [(key, piece)]

/-- `_accumulate_tool_call_args` for a single fragment. -/
def accumulateFrag (buffers : List (Int × List Char)) (tc : ToolCallChunk) :
    List (Int × List Char) :=
  if tc.name = none ∨ tc.name = some "" ∨ tc.name = some "CitationTool" then
    match argsToPiece tc.args with
    | some piece =>
      if piece = [] then buffers else bufUpdate buffers (tc.index.getD 0) piece
    | none => buffers
  else buffers

def accumulateToolCallArgs (buffers : List (Int × List Char))
    (toolChunks : List ToolCallChunk) : List (Int × List Char) :=
  toolChunks.foldl accumulateFrag buffers

def lookupBuf (buffers : List (Int × List Char)) (k : Int) : List Char :=
  (((buffers.find? (fun e => decide (e.1 = k))).map Prod.snd)).getD []

/-- Insertion into a `≤`-sorted list of keys (used to model Python's
`sorted(buffers)` over the integer buffer keys). -/
def insertSorted (k : Int) : List Int → List Int
  | [] => [k]
  | x :: xs => if k ≤ x then k :: x :: xs else x :: insertSorted k xs

/-- Ascending insertion sort of the buffer keys, Python's `sorted(buffers)`. -/
def sortKeys (ks : List Int) : List Int := ks.foldr insertSorted []

/-- `_parse_citations_from_buffers`; `parsePayload` abstracts
`json.loads` + `CitationTool.model_validate` (with its list fallback): `some`
returns the validated citations, `none` marks an unparseable buffer. -/
def parseCitationsFromBuffers (parsePayload : List Char → Option (List CitationM))
    (buffers : List (Int × List Char)) : List CitationM :=
  (sortKeys (buffers.map Prod.fst)).foldl
    (fun acc k =>
      let rawArgs := pyStrip (lookupBuf buffers k)
      if rawArgs = [] then acc
      else
        match parsePayload rawArgs with
        | some cits => acc ++ cits
        | none => acc)
    []

/-! ## The streaming emitter state machine (`stream_answer_events`) -/

structure StreamState where
  buffer : List Char
  emitted : Nat
  events : List (List Char)
  toolBuffers : List (Int × List Char)
deriving DecidableEq

def initialStreamState : StreamState := ⟨[], 0, [], []⟩

/-- The `safe_target_length` computation of `stream_answer_events`: the whole
sanitized text once the marker has been found complete, otherwise everything but
its last `markerGuardLength` characters. -/
def safeTarget (buffer : List Char) : Nat :=
  if containsCitationToolMarker buffer then (sanitizeAnswerText buffer).length
  else (sanitizeAnswerText buffer).length - markerGuardLength

/-- One iteration of the `async for chunk in chain.astream(...)` loop: extend the
buffer with the chunk's text, emit the newly safe portion of the sanitized
buffer, then accumulate tool-call fragments. -/
def processChunk (st : StreamState) (ch : StreamChunk) : StreamState :=
  let st' :=
    if ch.text = [] then st
    else
      let buffer := st.buffer ++ ch.text
      let cleanText := sanitizeAnswerText buffer
      let safeTargetLength := safeTarget buffer
      if st.emitted < safeTargetLength then
        let safeToken := (cleanText.take safeTargetLength).drop st.emitted
        { st with
          buffer := buffer
          emitted := safeTargetLength
          events := st.events ++ if safeToken = [] then [] else [safeToken] }
      else { st with buffer := buffer }
  { st' with toolBuffers := accumulateToolCallArgs st'.toolBuffers ch.toolChunks }

def runStream (chunks : List StreamChunk) : StreamState :=
  chunks.foldl processChunk initialStreamState

/-- A text-only stream chunk (no tool-call fragments). -/
def textChunk (t : List Char) : StreamChunk := ⟨t, []⟩

inductive StreamEvent where
  | token (text : List Char)
  | finalEv (answer : List Char) (citations : List CitationM)
  | errorEv (message : String)
deriving DecidableEq

def StreamEvent.isError : StreamEvent → Bool
  | .errorEv _ => true
  | _ => false

def tokenEvents (st : StreamState) : List StreamEvent :=
  st.events.map StreamEvent.token

/-- `generate_answer` after the provider call: both the `isinstance` path and the
`model_validate` path sanitize the validated answer and keep the citations.
The provider call and pydantic validation are external; `modelResult` is the
structured output they deliver. -/
def generateAnswer (modelResult : ChatResponseM) : ChatResponseM :=
  { answer := sanitizeAnswerText modelResult.answer
    citations := modelResult.citations }

def streamFailureMessage : List Char :=
  ("I can provide citations for the answer, but the response text " ++
    "could not be streamed for this provider.").toList

/-- `stream_answer_events` end to end.  `upstreamFails` marks the upstream model
stream raising after delivering `chunks`; `genResult` is the outcome of the
`generate_answer` recovery call (`none` = it raised).  Returns the emitted
events and whether the failure propagated to the caller. -/
def streamAnswerEvents (parsePayload : List Char → Option (List CitationM))
    (uuidCanon : List Char → Option (List Char))
    (retrievedDocs : List DocumentM) (chunks : List StreamChunk)
    (upstreamFails : Bool) (genResult : Option ChatResponseM) :
    List StreamEvent × Bool :=
  let fallbackCitations := fallbackCitationsFromDocs uuidCanon retrievedDocs
  let st := runStream chunks
  if upstreamFails then
    let fallbackAnswer := sanitizeAnswerText st.buffer
    if fallbackAnswer = [] then (tokenEvents st, true)
    else (tokenEvents st ++ [.finalEv fallbackAnswer fallbackCitations], false)
  else
    let citations := parseCitationsFromBuffers parsePayload st.toolBuffers
    let finalAnswer := sanitizeAnswerText st.buffer
    let finalPair :=
      if finalAnswer = [] then
        match genResult with
        | some resp =>
          (sanitizeAnswerText resp.answer,
            if citations = [] then resp.citations else citations)
        | none => (streamFailureMessage, citations)
      else (finalAnswer, citations)
    (tokenEvents st ++
      [.finalEv finalPair.1 (if finalPair.2 = [] then fallbackCitations else finalPair.2)],
      false)

/-! ## Query reformulation (`reformulate_query`, `_extract_text_from_content`) -/

inductive ContentPart where
  | partStr (s : List Char)
  | partDictText (s : List Char)
  | partDictOther
  | partOther
deriving DecidableEq

inductive ContentVal where
  | contentStr (s : List Char)
  | contentList (parts : List ContentPart)
  | contentOther
deriving DecidableEq

def extractTextFromContent : ContentVal → List Char
  | .contentStr s => s
  | .contentList parts =>
    (parts.map fun p =>
      match p with
      | .partStr s => s
      | .partDictText s => s
      | _ => []).flatten
  | .contentOther => []

/-- `reformulate_query`: with no prior history the model is never invoked and the
raw query is returned unchanged; otherwise the model's reply (`modelReply`) is
extracted and stripped, an empty result falling back to the raw query. -/
def reformulateQuery {α : Type} (rawQuery : List Char) (chatHistory : List α)
    (modelReply : ContentVal) : List Char :=
  if chatHistory.isEmpty then rawQuery
  else
    let reformulated := pyStrip (extractTextFromContent modelReply)
    if reformulated = [] then rawQuery else reformulated

/-! ## Retriever (`retriever.py`)

The sparse chunk store `documind_chunks.jsonl` is modelled line by line: a line
is whitespace-only, fails `json.loads`, parses but carries an unusable
`page_content`, or is a good record.  A missing file is `none`. -/

inductive StoreLine where
  | blankLine
  | malformedLine
  | badRecord
  | record (content : List Char) (meta : DocMeta)
deriving DecidableEq

/-- Whether `line.strip()` is truthy for this line. -/
def StoreLine.nonBlank : StoreLine → Bool
  | .blankLine => false
  | _ => true

/-- The document a line contributes, if any: blank, malformed and bad-payload
lines are skipped, as are records whose `page_content` strips to nothing. -/
def lineDocument : StoreLine → Option DocumentM
  | .record content meta =>
    if pyStrip content = [] then none else some ⟨content, meta⟩
  | _ => none

/-- The read loop of `_extract_documents_from_sparse_store`: stop as soon as the
limit is reached, skip lines that yield no document. -/
def extractLoop (lines : List StoreLine) (limit : Option Nat) (count : Nat) :
    List DocumentM :=
  match lines with
  | [] => []
  | l :: rest =>
    if (match limit with | some m => decide (count ≥ m) | none => false) then []
    else
      match lineDocument l with
      | none => extractLoop rest limit count
      | some d => d :: extractLoop rest limit (count + 1)

/-- `_extract_documents_from_sparse_store`: a missing store yields an empty
sequence; `maxDocuments` is clamped below at 0. -/
def extractDocumentsFromSparseStore (store : Option (List StoreLine))
    (maxDocuments : Option Int) : List DocumentM :=
  match store with
  | none => []
  | some lines =>
    let limit := maxDocuments.map (fun m => (max 0 m).toNat)
    extractLoop lines limit 0

/-- `_sparse_store_has_documents`: any non-blank line counts. -/
def sparseStoreHasDocuments (store : Option (List StoreLine)) : Bool :=
  match store with
  | none => false
  | some lines => lines.any StoreLine.nonBlank

/-- `_coerce_positive_int`. -/
def coercePositiveInt (value : Option Int) (dflt : Nat) : Nat :=
  match value with
  | none => dflt
  | some v => if v ≤ 0 then dflt else v.toNat

/-- `maybe_add_documents_to_bm25`: extend the in-memory corpus, then evict the
oldest documents beyond the configured cap. -/
def maybeAddDocumentsToBM25 (bm25Enabled : Bool) (bm25MaxDocsSetting : Int)
    (bm25Documents chunks : List DocumentM) : List DocumentM :=
  if !bm25Enabled then bm25Documents
  else if chunks = [] then bm25Documents
  else
    let extended := bm25Documents ++ chunks
    let maxDocs := coercePositiveInt (some bm25MaxDocsSetting) 5000
    if extended.length > maxDocs then extended.drop (extended.length - maxDocs)
    else extended

/-- A whole ingestion sequence against an initially empty in-memory corpus. -/
def ingestAll (bm25Enabled : Bool) (bm25MaxDocsSetting : Int)
    (batches : List (List DocumentM)) : List DocumentM :=
  batches.foldl (maybeAddDocumentsToBM25 bm25Enabled bm25MaxDocsSetting) []

/-- The retriever `_build_hybrid_retriever` returns: the sparse index alone, the
dense index alone, or the weighted ensemble of both. -/
inductive RetrieverKind where
  | sparseOnly (docs : List DocumentM) (bm25K : Nat)
  | denseOnly (denseK : Nat)
  | ensemble (docs : List DocumentM) (denseK bm25K : Nat) (denseWeight : Rat)
deriving DecidableEq

def notReadyBuildMessage : String := "No retriever is available. Upload documents first."

def notReadyInitMessage : String :=
  "Hybrid retriever is not initialized. Upload documents first."

/-- Deployment configuration (`config.py` settings read by the retriever). -/
structure RetConfig where
  bm25Enabled : Bool
  denseEnabled : Bool
  bm25MaxDocsSetting : Int
deriving DecidableEq

/-- The retriever module's mutable globals. -/
structure RetrieverState where
  bm25Documents : List DocumentM
  storeHasDocs : Option Bool
deriving DecidableEq

/-- The external world the retriever reads: the on-disk sparse store, whether the
Chroma vector store has documents, the documents it can rebuild from it, and
whether an embeddings model is present. -/
structure RetWorld where
  store : Option (List StoreLine)
  vectorHasDocs : Bool
  vectorDocs : List DocumentM
  embeddingsPresent : Bool

/-- `_detect_vector_store_has_documents` / `_detect_store_has_documents`:
returns the verdict and the refreshed `_store_has_docs` cache. -/
def detectStoreHasDocuments (cfg : RetConfig) (w : RetWorld) : Bool × Option Bool :=
  if sparseStoreHasDocuments w.store then (true, some true)
  else if !cfg.denseEnabled then (false, some false)
  else (w.vectorHasDocs, some w.vectorHasDocs)

/-- `_extract_documents_from_store`: sparse store first, vector store as the
dense-enabled fallback. -/
def extractDocumentsFromStore (cfg : RetConfig) (w : RetWorld)
    (maxDocuments : Option Int) : List DocumentM :=
  let sparseDocs := extractDocumentsFromSparseStore w.store maxDocuments
  if sparseDocs ≠ [] then sparseDocs
  else if !cfg.denseEnabled then []
  else
    match maxDocuments with
    | none => w.vectorDocs
    | some m => w.vectorDocs.take (max 0 m).toNat

/-- `_initialize_retriever_from_disk` (with `max_documents = None`). -/
def initializeRetrieverFromDisk (cfg : RetConfig) (w : RetWorld)
    (st : RetrieverState) : RetrieverState :=
  if !cfg.bm25Enabled then { st with bm25Documents := [] }
  else
    let maxDocs := coercePositiveInt (some cfg.bm25MaxDocsSetting) 5000
    { st with bm25Documents := extractDocumentsFromStore cfg w (some (maxDocs : Int)) }

/-- `_build_hybrid_retriever`. -/
def buildHybridRetriever (cfg : RetConfig) (embeddingsPresent : Bool)
    (bm25Documents : List DocumentM) (denseK bm25K : Nat) (denseWeight : Rat) :
    Except String RetrieverKind :=
  let denseAvailable := cfg.denseEnabled && embeddingsPresent
  let useBm25 := cfg.bm25Enabled && !bm25Documents.isEmpty
  if useBm25 && !denseAvailable then .ok (.sparseOnly bm25Documents bm25K)
  else if denseAvailable && !useBm25 then .ok (.denseOnly denseK)
  else if !denseAvailable && !useBm25 then .error notReadyBuildMessage
  else .ok (.ensemble bm25Documents denseK bm25K denseWeight)

/-- `_retrieve_documents`: lazy sparse-index rebuild, the `NotReady` guards, then
retriever construction.  Returns the retriever that will be invoked together
with the refreshed module state. -/
def retrieveDocuments (cfg : RetConfig) (w : RetWorld) (st : RetrieverState)
    (denseK bm25K : Nat) (denseWeight : Rat) :
    Except String (RetrieverKind × RetrieverState) :=
  let st :=
    if cfg.bm25Enabled && st.bm25Documents.isEmpty then
      initializeRetrieverFromDisk cfg w st
    else st
  let afterGuard : Except String RetrieverState :=
    if st.bm25Documents.isEmpty ∧ st.storeHasDocs = none then
      let det := detectStoreHasDocuments cfg w
      let st := { st with storeHasDocs := det.2 }
      if !det.1 then .error notReadyInitMessage else .ok st
    else if st.bm25Documents.isEmpty ∧ st.storeHasDocs = some false ∧
        !cfg.denseEnabled then
      .error notReadyInitMessage
    else .ok st
  match afterGuard with
  | .error e => .error e
  | .ok st =>
    match buildHybridRetriever cfg w.embeddingsPresent st.bm25Documents
        denseK bm25K denseWeight with
    | .error e => .error e
    | .ok r => .ok (r, st)

/-- `_serialize_document` followed by `json.dumps` + append: ingestion writes one
good record per chunk. -/
def appendDocumentsToSparseStore (store : Option (List StoreLine))
    (chunks : List DocumentM) : Option (List StoreLine) :=
  if chunks = [] then store
  else some (store.getD [] ++ chunks.map (fun c => .record c.page_content c.metadata))

/-- `_add_documents` followed by `maybe_add_documents_to_bm25` (the `/upload`
route's ingestion path): append to the store, set `_store_has_docs`, extend the
in-memory sparse index.  Empty chunk lists are a no-op, as in the source. -/
def ingestChunks (cfg : RetConfig) (w : RetWorld) (st : RetrieverState)
    (chunks : List DocumentM) : RetWorld × RetrieverState :=
  if chunks = [] then (w, st)
  else
    ({ w with store := appendDocumentsToSparseStore w.store chunks },
      { bm25Documents :=
          maybeAddDocumentsToBM25 cfg.bm25Enabled cfg.bm25MaxDocsSetting
            st.bm25Documents chunks
        storeHasDocs := some true })

/-- Search semantics for the three retriever shapes, parametrized by the
external BM25 scorer, the dense (vector) scorer and the ensemble fusion. -/
def searchWith (bm25Search : List DocumentM → Nat → List Char → List DocumentM)
    (denseSearch : Nat → List Char → List DocumentM)
    (ensembleSearch : List DocumentM → Nat → Nat → Rat → List Char → List DocumentM)
    (r : RetrieverKind) (query : List Char) : List DocumentM :=
  match r with
  | .sparseOnly docs bm25K => bm25Search docs bm25K query
  | .denseOnly denseK => denseSearch denseK query
  | .ensemble docs denseK bm25K w => ensembleSearch docs denseK bm25K w query

/-! ## Session history (`main.py`: `session_store` bookkeeping in
`event_generator`) -/

inductive MsgM where
  | human (content : String)
  | ai (content : String)
deriving DecidableEq

/-- The session map, in Python-dict insertion order. -/
abbrev SessionStore := List (String × List MsgM)

def maxChatHistoryMessagesPerSession : Nat := 20

def maxInMemorySessions : Nat := 200

/-- `session_store.setdefault(session_id, [])`. -/
def setdefaultSession (store : SessionStore) (sid : String) : SessionStore :=
  if store.any (fun e => e.1 = sid) then store else store ++ [(sid, [])]

/-- In-place mutation of one session's history (Python dict update keeps the
entry's insertion position). -/
def updateSession (store : SessionStore) (sid : String)
    (f : List MsgM → List MsgM) : SessionStore :=
  store.map (fun e => if e.1 = sid then (e.1, f e.2) else e)

/-- `del history[:-MAX_CHAT_HISTORY_MESSAGES_PER_SESSION]`. -/
def trimHistory (h : List MsgM) : List MsgM :=
  if h.length > maxChatHistoryMessagesPerSession then
    h.drop (h.length - maxChatHistoryMessagesPerSession)
  else h

/-- `while len(session_store) > MAX_IN_MEMORY_SESSIONS: ...` — evict the oldest
session unless it is the one being written to. -/
def evictSessions : SessionStore → String → SessionStore
  | [], _ => []
  | e :: rest, sid =>
    if (e :: rest).length > maxInMemorySessions then
      if e.1 = sid then e :: rest else evictSessions rest sid
    else e :: rest

/-- The end-of-stream bookkeeping in `event_generator`: record the turn in the
session's history, trim it, and evict whole sessions beyond the cap. -/
def recordTurn (store : SessionStore) (sid : String) (query finalAnswer : String) :
    SessionStore :=
  let store := setdefaultSession store sid
  let store := updateSession store sid
    (fun h => trimHistory (h ++ [.human query, .ai finalAnswer]))
  evictSessions store sid

def sampleDoc (s : String) : DocumentM :=
  ⟨s.toList, ⟨none, none, none, none, none, none⟩⟩

/-- The invariant maintained by the token-emission loop over the text parts of
the stream state: what has been released is exactly a prefix of the
left-stripped buffer of length `emitted`; that length stays within the stripped
buffer; every marker occurrence in the buffer ends strictly beyond the released
region; and while no complete whole-word marker has been found, the last
`markerGuardLength` characters of the stripped buffer are withheld. -/
def TextInv (st : StreamState) : Prop :=
  st.emitted ≤ (pyStrip st.buffer).length ∧
  st.events.flatten = (lstrip st.buffer).take st.emitted ∧
  (∀ p, occB st.buffer p = true → lsLen st.buffer + st.emitted ≤ p + 11) ∧
  (containsCitationToolMarker st.buffer = false →
    st.emitted ≤ (pyStrip st.buffer).length - markerGuardLength)

/-- Once a token has been emitted, the first non-whitespace character of the
buffer stays strictly inside the region kept by every future sanitization: it
lies before the truncation point and more than `markerGuardLength` characters
before the end of the buffer. -/
def WInv (st : StreamState) : Prop :=
  st.events ≠ [] →
    lsLen st.buffer < min (truncPoint st.buffer) (st.buffer.length - 11)

/-! ## Lemmas on characters, occurrences and the regex search -/

theorem not_space_of_lowCh_c (c : Char) (h : lowCh c = 'c') : pyIsSpace c = false := by
  by_contra hsp
  have hsp' : pyIsSpace c = true := by revert hsp; cases pyIsSpace c <;> simp
  simp only [pyIsSpace, Bool.or_eq_true, decide_eq_true_eq] at hsp'
  rcases hsp' with ((((h1 | h1) | h1) | h1) | h1) | h1 <;> subst h1 <;>
    exact absurd h (by decide)

theorem isWordChar_of_lowCh_l (c : Char) (h : lowCh c = 'l') : isWordChar c = true := by
  unfold lowCh Char.toLower at h
  by_cases hc : c.toNat ≥ 65 ∧ c.toNat ≤ 90
  · have h1 : c.isUpper = true := by
      simp only [Char.isUpper, Bool.and_eq_true, decide_eq_true_eq]
      constructor
      · show (65 : UInt32) ≤ c.val
        rw [UInt32.le_def, BitVec.le_def]
        exact hc.1
      · show c.val ≤ (90 : UInt32)
        rw [UInt32.le_def, BitVec.le_def]
        exact hc.2
    simp [isWordChar, Char.isAlphanum, Char.isAlpha, h1]
  · rw [if_neg hc] at h
    subst h
    decide

theorem occB_length {s : List Char} {p : Nat} (h : occB s p = true) :
    p + 12 ≤ s.length := by
  simp only [occB, decide_eq_true_eq] at h
  have h1 : (lowAll ((s.drop p).take 12)).length = markerL.length := by rw [h]
  simp only [lowAll, markerL, List.length_map, List.length_take, List.length_drop,
    List.length_cons, List.length_nil] at h1
  omega

theorem occB_getD {s : List Char} {p : Nat} (h : occB s p = true) (i : Nat)
    (hi : i < 12) : lowCh (s.getD (p + i) ' ') = markerL.getD i ' ' := by
  have hlen := occB_length h
  simp only [occB, decide_eq_true_eq] at h
  have hlt : p + i < s.length := by omega
  have hi2 : i < ((s.drop p).take 12).length := by
    simp only [List.length_take, List.length_drop]
    omega
  have hi3 : i < (lowAll ((s.drop p).take 12)).length := by
    simpa [lowAll] using hi2
  have hi4 : i < markerL.length := by
    simp only [markerL, List.length_cons, List.length_nil]
    omega
  have h2 : (lowAll ((s.drop p).take 12)).getD i ' ' = markerL.getD i ' ' := by rw [h]
  rw [List.getD_eq_getElem _ _ hi3, List.getD_eq_getElem _ _ hi4] at h2
  rw [List.getD_eq_getElem _ _ hlt, List.getD_eq_getElem _ _ hi4]
  rw [← h2]
  simp only [lowAll, List.getElem_map, List.getElem_take, List.getElem_drop]

theorem occB_false_of_lt {s : List Char} {p : Nat} (h : s.length < p + 12) :
    occB s p = false := by
  by_contra hx
  have hx' : occB s p = true := by revert hx; cases occB s p <;> simp
  have := occB_length hx'
  omega

theorem matchAtB_occB {s : List Char} {p : Nat} (h : matchAtB s p = true) :
    occB s p = true := by
  simp only [matchAtB, Bool.and_eq_true] at h
  exact h.1.1

/-- `searchFromAux` specification: for fuel covering the remaining positions, a
`some` result is the least match at or after `p`, and a `none` result means
there is no match at or after `p`. -/
theorem searchFromAux_spec (s : List Char) :
    ∀ n p, s.length ≤ p + n →
      (∀ q, searchFromAux s n p = some q →
        p ≤ q ∧ matchAtB s q = true ∧ ∀ r, p ≤ r → r < q → matchAtB s r = false) ∧
      (searchFromAux s n p = none → ∀ r, p ≤ r → matchAtB s r = false) := by
  intro n
  induction n with
  | zero =>
    intro p hp
    constructor
    · intro q hq
      exact absurd hq (by simp [searchFromAux])
    · intro _ r hr
      refine Bool.eq_false_iff.mpr ?_
      intro hm
      have := occB_length (matchAtB_occB hm)
      omega
  | succ n ih =>
    intro p hp
    by_cases hlt : p < s.length
    · constructor
      · intro q hq
        unfold searchFromAux at hq
        rw [if_pos hlt] at hq
        by_cases hm : matchAtB s p = true
        · rw [if_pos hm] at hq
          have hq' : p = q := by simpa using hq
          subst hq'
          exact ⟨le_refl _, hm, fun r h1 h2 => absurd h1 (by omega)⟩
        · rw [if_neg hm] at hq
          obtain ⟨h1, h2, h3⟩ := ((ih (p + 1) (by omega)).1 q hq)
          refine ⟨by omega, h2, fun r hr1 hr2 => ?_⟩
          by_cases hrp : r = p
          · subst hrp
            exact Bool.eq_false_iff.mpr hm
          · exact h3 r (by omega) hr2
      · intro hq r hr
        unfold searchFromAux at hq
        rw [if_pos hlt] at hq
        by_cases hm : matchAtB s p = true
        · rw [if_pos hm] at hq
          exact absurd hq (by simp)
        · rw [if_neg hm] at hq
          by_cases hrp : r = p
          · subst hrp
            exact Bool.eq_false_iff.mpr hm
          · exact (ih (p + 1) (by omega)).2 hq r (by omega)
    · constructor
      · intro q hq
        unfold searchFromAux at hq
        rw [if_neg hlt] at hq
        exact absurd hq (by simp)
      · intro _ r hr
        refine Bool.eq_false_iff.mpr ?_
        intro hm
        have := occB_length (matchAtB_occB hm)
        omega

theorem firstMatch_some {s : List Char} {q : Nat} (h : firstMatch s = some q) :
    matchAtB s q = true ∧ ∀ r, r < q → matchAtB s r = false := by
  obtain ⟨_, h2, h3⟩ := ((searchFromAux_spec s (s.length - 0) 0 (by omega)).1 q h)
  exact ⟨h2, fun r hr => h3 r (Nat.zero_le _) hr⟩

theorem firstMatch_none {s : List Char} (h : firstMatch s = none) :
    ∀ r, matchAtB s r = false := by
  intro r
  exact (searchFromAux_spec s (s.length - 0) 0 (by omega)).2 h r (Nat.zero_le _)

theorem firstMatch_of_match {s : List Char} {r : Nat} (h : matchAtB s r = true) :
    ∃ q, firstMatch s = some q ∧ q ≤ r := by
  match hq : firstMatch s with
  | none => exact absurd (firstMatch_none hq r) (by simp [h])
  | some q =>
    refine ⟨q, rfl, ?_⟩
    by_contra hgt
    have := (firstMatch_some hq).2 r (by omega)
    simp [h] at this

theorem firstMatch_lt_length {s : List Char} {q : Nat} (h : firstMatch s = some q) :
    q + 12 ≤ s.length :=
  occB_length (matchAtB_occB (firstMatch_some h).1)

/-! ## Lemmas on `lstrip`, `rstrip` and `pyStrip` -/

theorem getD_of_lt {l : List α} {n : Nat} (h : n < l.length) (d : α) :
    l.getD n d = l[n] := List.getD_eq_getElem l d h

theorem getD_of_ge {l : List α} {n : Nat} (h : l.length ≤ n) (d : α) :
    l.getD n d = d := by
  rw [List.getD_eq_getElem?_getD, List.getElem?_eq_none h]
  rfl

theorem lsLen_le_length (s : List Char) : lsLen s ≤ s.length := by
  have h := congrArg List.length (List.takeWhile_append_dropWhile pyIsSpace s)
  simp only [List.length_append] at h
  unfold lsLen
  omega

theorem takeWhile_eq_take (s : List Char) : s.takeWhile pyIsSpace = s.take (lsLen s) := by
  have h2 : s.take (lsLen s) =
      (s.takeWhile pyIsSpace ++ s.dropWhile pyIsSpace).take (lsLen s) := by
    rw [List.takeWhile_append_dropWhile]
  have hle : lsLen s ≤ (s.takeWhile pyIsSpace).length := le_of_eq rfl
  have hge : (s.takeWhile pyIsSpace).length ≤ lsLen s := le_of_eq rfl
  rw [h2, List.take_append_of_le_length hle, List.take_of_length_le hge]

theorem lstrip_eq_drop (s : List Char) : lstrip s = s.drop (lsLen s) := by
  have h2 : s.drop (lsLen s) =
      (s.takeWhile pyIsSpace ++ s.dropWhile pyIsSpace).drop (lsLen s) := by
    rw [List.takeWhile_append_dropWhile]
  have hle : lsLen s ≤ (s.takeWhile pyIsSpace).length := le_of_eq rfl
  have hge : (s.takeWhile pyIsSpace).length ≤ lsLen s := le_of_eq rfl
  rw [h2, List.drop_append_of_le_length hle, List.drop_of_length_le hge]
  rfl

theorem lstrip_length (s : List Char) : (lstrip s).length = s.length - lsLen s := by
  rw [lstrip_eq_drop, List.length_drop]

theorem lsLen_eq_of_lstrip_nil {s : List Char} (h : lstrip s = []) :
    lsLen s = s.length := by
  have := lstrip_length s
  rw [h] at this
  simp only [List.length_nil] at this
  have := lsLen_le_length s
  omega

theorem pyStrip_of_lstrip_nil {s : List Char} (h : lstrip s = []) : pyStrip s = [] := by
  rw [pyStrip, h]
  rfl

theorem rstrip_decomp (x : List Char) :
    ∃ t, x = rstrip x ++ t ∧ ∀ c ∈ t, pyIsSpace c = true := by
  refine ⟨(x.reverse.takeWhile pyIsSpace).reverse, ?_, ?_⟩
  · conv_lhs => rw [← List.reverse_reverse x,
      ← List.takeWhile_append_dropWhile pyIsSpace x.reverse]
    rw [List.reverse_append]
    rfl
  · intro c hc
    rw [List.mem_reverse] at hc
    exact List.mem_takeWhile_imp hc

theorem rstrip_pre (x : List Char) : rstrip x <+: x := by
  obtain ⟨t, ht, _⟩ := rstrip_decomp x
  exact ⟨t, ht.symm⟩

theorem rstrip_length_le (x : List Char) : (rstrip x).length ≤ x.length :=
  (rstrip_pre x).length_le

theorem dropWhile_length_ge_append (p : α → Bool) (a b : List α) :
    (b.dropWhile p).length ≤ ((a ++ b).dropWhile p).length := by
  rw [List.dropWhile_append]
  by_cases h : (a.dropWhile p).isEmpty
  · rw [if_pos h]
  · rw [if_neg h]
    have h1 : (b.dropWhile p).length ≤ b.length := by
      have := congrArg List.length (List.takeWhile_append_dropWhile p b)
      simp only [List.length_append] at this
      omega
    simp only [List.length_append]
    omega

theorem rstrip_length_mono_app (a t : List Char) :
    (rstrip a).length ≤ (rstrip (a ++ t)).length := by
  simp only [rstrip, List.length_reverse, List.reverse_append]
  exact dropWhile_length_ge_append _ t.reverse a.reverse

theorem lstrip_append_of_ne {a : List Char} (h : lstrip a ≠ []) (t : List Char) :
    lstrip (a ++ t) = lstrip a ++ t := by
  unfold lstrip at h ⊢
  rw [List.dropWhile_append, if_neg (by simpa [List.isEmpty_iff] using h)]

theorem pyStrip_length_mono_app (a t : List Char) :
    (pyStrip a).length ≤ (pyStrip (a ++ t)).length := by
  by_cases h : lstrip a = []
  · rw [pyStrip_of_lstrip_nil h]
    exact Nat.zero_le _
  · unfold pyStrip
    rw [lstrip_append_of_ne h]
    exact rstrip_length_mono_app _ _

theorem pyStrip_length_mono_pre {a b : List Char} (h : a <+: b) :
    (pyStrip a).length ≤ (pyStrip b).length := by
  obtain ⟨t, rfl⟩ := h
  exact pyStrip_length_mono_app a t

theorem pyStrip_length_le_lstrip (s : List Char) :
    (pyStrip s).length ≤ (lstrip s).length :=
  rstrip_length_le _

theorem lstrip_pre_mono {a b : List Char} (h : a <+: b) : lstrip a <+: lstrip b := by
  by_cases ha : lstrip a = []
  · rw [ha]
    exact List.nil_prefix
  · obtain ⟨t, rfl⟩ := h
    rw [lstrip_append_of_ne ha]
    exact List.prefix_append _ _

theorem lstrip_take_pre (s : List Char) (n : Nat) : lstrip (s.take n) <+: lstrip s :=
  lstrip_pre_mono (List.take_prefix n s)

theorem lsLen_append_of_ne {a : List Char} (h : lstrip a ≠ []) (t : List Char) :
    lsLen (a ++ t) = lsLen a := by
  unfold lsLen
  rw [List.takeWhile_append]
  have hne : (a.takeWhile pyIsSpace).length ≠ a.length := by
    intro heq
    have hlen := congrArg List.length (List.takeWhile_append_dropWhile pyIsSpace a)
    simp only [List.length_append] at hlen
    have : (a.dropWhile pyIsSpace).length = 0 := by omega
    exact h (List.length_eq_zero.mp this)
  rw [if_neg hne]

theorem sanitize_eq_strip_take (s : List Char) :
    sanitizeAnswerText s = pyStrip (s.take (truncPoint s)) := by
  unfold sanitizeAnswerText truncPoint
  match h : firstMatch s with
  | some p => simp
  | none => simp [List.take_length]

theorem sanitize_pre_lstrip (s : List Char) : sanitizeAnswerText s <+: lstrip s := by
  rw [sanitize_eq_strip_take]
  exact (rstrip_pre _).trans (lstrip_take_pre s _)

theorem sanitize_length_le_strip (s : List Char) :
    (sanitizeAnswerText s).length ≤ (pyStrip s).length := by
  rw [sanitize_eq_strip_take]
  exact pyStrip_length_mono_pre (List.take_prefix _ s)

theorem take_eq_of_pre {a b : List α} (h : a <+: b) {n : Nat} (hn : n ≤ a.length) :
    b.take n = a.take n := by
  obtain ⟨t, rfl⟩ := h
  rw [List.take_append_of_le_length hn]

theorem take_append_drop_take (X : List α) {e s : Nat} (h : e ≤ s) :
    X.take e ++ (X.take s).drop e = X.take s := by
  have h1 : (X.take s).take e = X.take e := by
    rw [List.take_take, Nat.min_eq_left h]
  rw [← h1, List.take_append_drop]

theorem flatten_take_pre (l : List (List α)) (k : Nat) :
    (l.take k).flatten <+: l.flatten := by
  conv_rhs => rw [← List.take_append_drop k l]
  rw [List.flatten_append]
  exact List.prefix_append _ _

/-! ## Occurrence and match transfer lemmas -/

theorem occB_append_left {s : List Char} {p : Nat} (h : occB s p = true)
    (t : List Char) : occB (s ++ t) p = true := by
  have hlen := occB_length h
  simp only [occB, decide_eq_true_eq] at h ⊢
  rw [List.drop_append_of_le_length (by omega),
    List.take_append_of_le_length (by simp only [List.length_drop]; omega)]
  exact h

theorem occB_pre_of {a b : List Char} (h : a <+: b) {p : Nat}
    (hocc : occB a p = true) : occB b p = true := by
  obtain ⟨t, rfl⟩ := h
  exact occB_append_left hocc t

theorem occB_append_inv {s t : List Char} {p : Nat} (h : occB (s ++ t) p = true)
    (hp : p + 12 ≤ s.length) : occB s p = true := by
  simp only [occB, decide_eq_true_eq] at h ⊢
  rw [List.drop_append_of_le_length (by omega),
    List.take_append_of_le_length (by simp only [List.length_drop]; omega)] at h
  exact h

theorem occB_take_inv {x : List Char} {n q : Nat} (h : occB (x.take n) q = true) :
    occB x q = true :=
  occB_pre_of (List.take_prefix n x) h

theorem occB_drop_shift {x : List Char} {m q : Nat} (h : occB (x.drop m) q = true) :
    occB x (m + q) = true := by
  simp only [occB, decide_eq_true_eq] at h ⊢
  rw [List.drop_drop] at h
  exact h

theorem occB_append_shift {t : List Char} {q : Nat} (h : occB t q = true)
    (w : List Char) : occB (w ++ t) (w.length + q) = true := by
  simp only [occB, decide_eq_true_eq] at h ⊢
  rw [List.drop_append]
  exact h

theorem getD_append_left {a t : List Char} {i : Nat} (h : i < a.length) (d : Char) :
    (a ++ t).getD i d = a.getD i d := by
  rw [getD_of_lt (by simp only [List.length_append]; omega) d, getD_of_lt h d]
  exact List.getElem_append_left h

theorem getD_append_right (a v : List Char) (j : Nat) (d : Char) :
    (a ++ v).getD (a.length + j) d = v.getD j d := by
  by_cases hj : j < v.length
  · rw [getD_of_lt (by simp only [List.length_append]; omega) d, getD_of_lt hj d]
    rw [List.getElem_append_right (by omega)]
    congr 1
    omega
  · rw [getD_of_ge (by simp only [List.length_append]; omega) d, getD_of_ge (by omega) d]

theorem getD_middle (w m u : List Char) {j : Nat} (hj : j < m.length) (d : Char) :
    (w ++ m ++ u).getD (w.length + j) d = m.getD j d := by
  rw [List.append_assoc, getD_append_right w (m ++ u) j d, getD_append_left hj d]

theorem wordAtB_append_left {a t : List Char} {i : Nat} (h : i < a.length) :
    wordAtB (a ++ t) i = wordAtB a i := by
  unfold wordAtB
  rw [getD_append_left h]

theorem not_word_of_space {c : Char} (h : pyIsSpace c = true) : isWordChar c = false := by
  simp only [pyIsSpace, Bool.or_eq_true, decide_eq_true_eq] at h
  rcases h with ((((h1 | h1) | h1) | h1) | h1) | h1 <;> subst h1 <;> decide

theorem matchAtB_append_inv {s t : List Char} {p : Nat}
    (h : matchAtB (s ++ t) p = true) (hocc : occB s p = true) :
    matchAtB s p = true := by
  have hlen := occB_length hocc
  simp only [matchAtB, Bool.and_eq_true, Bool.or_eq_true, Bool.not_eq_true'] at h ⊢
  obtain ⟨⟨_, hleft⟩, hright⟩ := h
  refine ⟨⟨hocc, ?_⟩, ?_⟩
  · rcases hleft with h0 | hw
    · exact Or.inl h0
    · by_cases hp0 : p = 0
      · exact Or.inl (by simp [hp0])
      · right
        rw [← wordAtB_append_left (t := t) (by omega)]
        exact hw
  · by_cases hcut : p + 12 < s.length
    · rw [← wordAtB_append_left (t := t) hcut]
      exact hright
    · have hsp : s.getD (p + 12) ' ' = ' ' := getD_of_ge (by omega) ' '
      unfold wordAtB
      rw [hsp]
      decide

theorem matchAtB_append_of_lt {a t : List Char} {q : Nat} (h : matchAtB a q = true)
    (hcut : q + 12 < a.length) : matchAtB (a ++ t) q = true := by
  have hocc := matchAtB_occB h
  simp only [matchAtB, Bool.and_eq_true, Bool.or_eq_true, Bool.not_eq_true'] at h ⊢
  obtain ⟨⟨_, hleft⟩, hright⟩ := h
  refine ⟨⟨occB_append_left hocc t, ?_⟩, ?_⟩
  · rcases hleft with h0 | hw
    · exact Or.inl h0
    · by_cases hp0 : q = 0
      · exact Or.inl (by simp [hp0])
      · right
        rw [wordAtB_append_left (t := t) (by omega)]
        exact hw
  · rw [wordAtB_append_left (t := t) hcut]
    exact hright

theorem occ_to_match_of_H {F B : List Char}
    (H : ∀ p, occB F p = true → matchAtB F p = true) (hpre : B <+: F) {p : Nat}
    (h : occB B p = true) : matchAtB B p = true := by
  obtain ⟨t, rfl⟩ := hpre
  exact matchAtB_append_inv (H p (occB_append_left h t)) h

theorem contains_of_occ_H {F B : List Char}
    (H : ∀ p, occB F p = true → matchAtB F p = true) (hpre : B <+: F) {p : Nat}
    (h : occB B p = true) : containsCitationToolMarker B = true := by
  obtain ⟨q, hq, _⟩ := firstMatch_of_match (occ_to_match_of_H H hpre h)
  simp [containsCitationToolMarker, hq]

theorem no_occ_of_not_contains_H {F B : List Char}
    (H : ∀ p, occB F p = true → matchAtB F p = true) (hpre : B <+: F)
    (h : containsCitationToolMarker B = false) : ∀ p, occB B p = false := by
  intro p
  by_contra hx
  have hx' : occB B p = true := by revert hx; cases occB B p <;> simp
  rw [contains_of_occ_H H hpre hx'] at h
  exact absurd h (by simp)

/-- A whole-word match survives being wrapped in all-whitespace padding. -/
theorem matchAtB_of_slice {w m u : List Char} (hw : ∀ c ∈ w, pyIsSpace c = true)
    (hu : ∀ c ∈ u, pyIsSpace c = true) {r : Nat} (h : matchAtB m r = true) :
    matchAtB (w ++ m ++ u) (w.length + r) = true := by
  have hocc := matchAtB_occB h
  have hrlen := occB_length hocc
  simp only [matchAtB, Bool.and_eq_true, Bool.or_eq_true, Bool.not_eq_true'] at h ⊢
  obtain ⟨⟨_, hleft⟩, hright⟩ := h
  refine ⟨⟨?_, ?_⟩, ?_⟩
  · rw [List.append_assoc]
    exact occB_append_shift (occB_append_left hocc u) w
  · by_cases hw0 : w.length + r = 0
    · exact Or.inl (by simp [hw0])
    · right
      by_cases hr0 : r = 0
      · subst hr0
        have hwne : 0 < w.length := by omega
        unfold wordAtB
        have hgd : (w ++ m ++ u).getD (w.length + 0 - 1) ' ' =
            w.getD (w.length - 1) ' ' := by
          rw [List.append_assoc]
          have hlt : w.length + 0 - 1 < w.length := by omega
          rw [getD_append_left hlt]
          congr 1
        rw [hgd, getD_of_lt (by omega) ' ']
        exact not_word_of_space (hw _ (List.getElem_mem _))
      · rcases hleft with h0 | hwb
        · exact absurd (by simpa using h0) hr0
        · unfold wordAtB at hwb ⊢
          have hidx : r - 1 < m.length := by omega
          have hrw : w.length + r - 1 = w.length + (r - 1) := by omega
          rw [hrw, getD_middle w m u hidx ' ']
          exact hwb
  · by_cases hcut : r + 12 < m.length
    · unfold wordAtB at hright ⊢
      have hrw : w.length + r + 12 = w.length + (r + 12) := by omega
      rw [hrw, getD_middle w m u hcut ' ']
      exact hright
    · have hm : r + 12 = m.length := by omega
      unfold wordAtB
      cases u with
      | nil =>
        have hge : (w ++ m ++ []).length ≤ w.length + r + 12 := by
          simp only [List.length_append, List.length_nil]
          omega
        rw [getD_of_ge hge ' ']
        decide
      | cons c u' =>
        have hidx : w.length + r + 12 = (w ++ m).length + 0 := by
          simp only [List.length_append]
          omega
        rw [hidx, getD_append_right (w ++ m) (c :: u') 0 ' ']
        exact not_word_of_space (hu c (by simp))

/-! ## Sanitization never leaves a whole-word marker (core of C10) -/

theorem strip_slice_decomp (y : List Char) :
    ∃ t, y = y.takeWhile pyIsSpace ++ pyStrip y ++ t ∧
      (∀ c ∈ y.takeWhile pyIsSpace, pyIsSpace c = true) ∧
      ∀ c ∈ t, pyIsSpace c = true := by
  obtain ⟨t, ht, hts⟩ := rstrip_decomp (lstrip y)
  refine ⟨t, ?_, fun c hc => List.mem_takeWhile_imp hc, hts⟩
  have hps : pyStrip y = rstrip (lstrip y) := rfl
  rw [List.append_assoc, hps, ← ht]
  exact (List.takeWhile_append_dropWhile pyIsSpace y).symm

theorem matchAtB_strip_shift {y : List Char} {r : Nat}
    (h : matchAtB (pyStrip y) r = true) : matchAtB y (lsLen y + r) = true := by
  obtain ⟨t, hy, hw, ht⟩ := strip_slice_decomp y
  have := matchAtB_of_slice hw ht h
  rw [← hy] at this
  exact this

theorem sanitize_no_match (s : List Char) :
    containsCitationToolMarker (sanitizeAnswerText s) = false := by
  unfold containsCitationToolMarker
  cases hfm : firstMatch (sanitizeAnswerText s) with
  | none => rfl
  | some r =>
    exfalso
    have hr := (firstMatch_some hfm).1
    rw [sanitize_eq_strip_take] at hr
    have hmatch : matchAtB (s.take (truncPoint s))
        (lsLen (s.take (truncPoint s)) + r) = true := matchAtB_strip_shift hr
    set y := s.take (truncPoint s) with hy
    set q := lsLen y + r with hq
    have hocc := matchAtB_occB hmatch
    have hql := occB_length hocc
    cases hfs : firstMatch s with
    | none =>
      have hys : y = s := by
        rw [hy]
        unfold truncPoint
        rw [hfs]
        exact List.take_length s
      rw [hys] at hmatch
      have hfalse := firstMatch_none hfs q
      rw [hmatch] at hfalse
      exact absurd hfalse (by simp)
    | some p =>
      have hyp : y = s.take p := by
        rw [hy]
        unfold truncPoint
        rw [hfs]
        rfl
      have hplen : p + 12 ≤ s.length := firstMatch_lt_length hfs
      have hylen : y.length = p := by
        rw [hyp, List.length_take]
        omega
      by_cases hlt : q + 12 < p
      · have hs : matchAtB s q = true := by
          have h2 : matchAtB (y ++ s.drop p) q = true :=
            matchAtB_append_of_lt hmatch (by omega)
          rw [hyp, List.take_append_drop] at h2
          exact h2
        have := (firstMatch_some hfs).2 q (by omega)
        simp [hs] at this
      · have hq12 : q + 12 = p := by omega
        have hoccs : occB s q = true := by
          refine occB_pre_of ?_ hocc
          rw [hyp]
          exact List.take_prefix p s
        have hl : lowCh (s.getD (q + 11) ' ') = 'l' := by
          have h11 := occB_getD hoccs 11 (by omega)
          simpa [markerL] using h11
        have hword := isWordChar_of_lowCh_l _ hl
        have hmp := (firstMatch_some hfs).1
        simp only [matchAtB, Bool.and_eq_true, Bool.or_eq_true,
          Bool.not_eq_true'] at hmp
        obtain ⟨⟨_, hleft⟩, _⟩ := hmp
        rcases hleft with h0 | hwb
        · have : p = 0 := by simpa using h0
          omega
        · unfold wordAtB at hwb
          have hp1 : p - 1 = q + 11 := by omega
          rw [hp1, hword] at hwb
          exact absurd hwb (by simp)

/-- C10: the non-streaming generation path also sanitizes the marker — the
returned answer is the model's validated answer with everything from the first
case-insensitive whole-word `CitationTool` occurrence removed and surrounding
whitespace stripped, so the returned answer never contains the marker as a
whole word; citations pass through unchanged. -/
theorem c10_generate_answer_sanitizes (modelResult : ChatResponseM) :
    (generateAnswer modelResult).answer = sanitizeAnswerText modelResult.answer ∧
    (generateAnswer modelResult).citations = modelResult.citations ∧
    containsCitationToolMarker (generateAnswer modelResult).answer = false :=
  ⟨rfl, rfl, sanitize_no_match modelResult.answer⟩

/-! ## The emitter's step equations and basic facts -/

theorem safeTarget_le (buffer : List Char) :
    safeTarget buffer ≤ (sanitizeAnswerText buffer).length := by
  unfold safeTarget
  split
  · exact le_refl _
  · omega

theorem processChunk_nil (st : StreamState) (ch : StreamChunk) (h : ch.text = []) :
    processChunk st ch =
      { st with toolBuffers := accumulateToolCallArgs st.toolBuffers ch.toolChunks } := by
  unfold processChunk
  rw [if_pos h]

theorem processChunk_emit (st : StreamState) (ch : StreamChunk) (h : ch.text ≠ [])
    (hlt : st.emitted < safeTarget (st.buffer ++ ch.text)) :
    processChunk st ch =
      { buffer := st.buffer ++ ch.text
        emitted := safeTarget (st.buffer ++ ch.text)
        events := st.events ++
          (if ((sanitizeAnswerText (st.buffer ++ ch.text)).take
              (safeTarget (st.buffer ++ ch.text))).drop st.emitted = [] then []
            else [((sanitizeAnswerText (st.buffer ++ ch.text)).take
              (safeTarget (st.buffer ++ ch.text))).drop st.emitted])
        toolBuffers := accumulateToolCallArgs st.toolBuffers ch.toolChunks } := by
  unfold processChunk
  rw [if_neg h]
  simp only [if_pos hlt]

theorem processChunk_noemit (st : StreamState) (ch : StreamChunk) (h : ch.text ≠ [])
    (hge : ¬st.emitted < safeTarget (st.buffer ++ ch.text)) :
    processChunk st ch =
      { st with
        buffer := st.buffer ++ ch.text
        toolBuffers := accumulateToolCallArgs st.toolBuffers ch.toolChunks } := by
  unfold processChunk
  rw [if_neg h]
  simp only [if_neg hge]

theorem processChunk_buffer (st : StreamState) (ch : StreamChunk) :
    (processChunk st ch).buffer = st.buffer ++ ch.text := by
  by_cases hnil : ch.text = []
  · rw [processChunk_nil st ch hnil, hnil, List.append_nil]
  · by_cases hemit : st.emitted < safeTarget (st.buffer ++ ch.text)
    · rw [processChunk_emit st ch hnil hemit]
    · rw [processChunk_noemit st ch hnil hemit]

theorem emit_token_ne {buffer : List Char} {emitted : Nat}
    (hlt : emitted < safeTarget buffer) :
    ((sanitizeAnswerText buffer).take (safeTarget buffer)).drop emitted ≠ [] := by
  have h1 := safeTarget_le buffer
  intro hnil
  have h2 := congrArg List.length hnil
  simp only [List.length_drop, List.length_take, List.length_nil] at h2
  omega

theorem lsLen_le_of_occB {s : List Char} {p : Nat} (h : occB s p = true) :
    lsLen s ≤ p := by
  by_contra hgt
  push_neg at hgt
  have hp : p < s.length := by
    have := occB_length h
    omega
  have hc : lowCh (s.getD p ' ') = 'c' := by
    simpa [markerL] using occB_getD h 0 (by omega)
  have hns := not_space_of_lowCh_c _ hc
  have hlt : p < (s.takeWhile pyIsSpace).length := hgt
  have h1 : (s.takeWhile pyIsSpace).getD p ' ' = s.getD p ' ' := by
    rw [takeWhile_eq_take]
    have hlt2 : p < (s.take (lsLen s)).length := by
      simp only [List.length_take]
      have := lsLen_le_length s
      omega
    rw [getD_of_lt hlt2, getD_of_lt hp]
    simp [List.getElem_take]
  have h2 : pyIsSpace ((s.takeWhile pyIsSpace).getD p ' ') = true := by
    rw [getD_of_lt hlt]
    exact List.mem_takeWhile_imp (List.getElem_mem _)
  rw [h1, hns] at h2
  exact absurd h2 (by simp)

theorem sanitize_eq_strip_of_not_contains {s : List Char}
    (h : containsCitationToolMarker s = false) : sanitizeAnswerText s = pyStrip s := by
  unfold containsCitationToolMarker at h
  cases hx : firstMatch s with
  | some q => rw [hx] at h; exact absurd h (by simp)
  | none => unfold sanitizeAnswerText; rw [hx]

theorem textInv_init : TextInv initialStreamState := by
  refine ⟨Nat.le_refl _, rfl, fun p hocc => ?_, fun _ => Nat.le_refl _⟩
  have h0 : occB initialStreamState.buffer p = false := occB_false_of_lt (by simp [initialStreamState])
  rw [h0] at hocc
  exact absurd hocc (by simp)

/-- Preservation of `TextInv` across one chunk, for input streams whose full
concatenation `F` only ever exhibits the marker as a whole word. -/
theorem textInv_step {F : List Char}
    (H : ∀ p, occB F p = true → matchAtB F p = true)
    (st : StreamState) (ch : StreamChunk)
    (hpre : st.buffer ++ ch.text <+: F) (hinv : TextInv st) :
    TextInv (processChunk st ch) := by
  obtain ⟨inv0, inv1, inv2, inv3⟩ := hinv
  by_cases hnil : ch.text = []
  · rw [processChunk_nil st ch hnil]
    exact ⟨inv0, inv1, inv2, inv3⟩
  · have hsanpre : sanitizeAnswerText (st.buffer ++ ch.text) <+:
        lstrip (st.buffer ++ ch.text) := sanitize_pre_lstrip _
    have hsafe_le := safeTarget_le (st.buffer ++ ch.text)
    have hsan_le := sanitize_length_le_strip (st.buffer ++ ch.text)
    have hstrip_mono := pyStrip_length_mono_app st.buffer ch.text
    have hstrip_lstrip := pyStrip_length_le_lstrip st.buffer
    have hflat_agree : (lstrip st.buffer).take st.emitted =
        (lstrip (st.buffer ++ ch.text)).take st.emitted := by
      by_cases hBnil : lstrip st.buffer = []
      · have hzero : (pyStrip st.buffer).length = 0 := by
          rw [pyStrip_of_lstrip_nil hBnil]
          rfl
        have h0 : st.emitted = 0 := by omega
        rw [h0]
        simp
      · refine (take_eq_of_pre (lstrip_pre_mono ⟨ch.text, rfl⟩) ?_).symm
        omega
    by_cases hemit : st.emitted < safeTarget (st.buffer ++ ch.text)
    · rw [processChunk_emit st ch hnil hemit]
      have htokne := emit_token_ne hemit
      refine ⟨?_, ?_, ?_, ?_⟩
      · show safeTarget (st.buffer ++ ch.text) ≤
          (pyStrip (st.buffer ++ ch.text)).length
        omega
      · show (st.events ++
            (if ((sanitizeAnswerText (st.buffer ++ ch.text)).take
                (safeTarget (st.buffer ++ ch.text))).drop st.emitted = [] then []
              else [((sanitizeAnswerText (st.buffer ++ ch.text)).take
                (safeTarget (st.buffer ++ ch.text))).drop st.emitted])).flatten =
          (lstrip (st.buffer ++ ch.text)).take (safeTarget (st.buffer ++ ch.text))
        rw [if_neg htokne, List.flatten_append, List.flatten_cons, List.flatten_nil,
          List.append_nil, inv1, hflat_agree]
        have hclean_take : (sanitizeAnswerText (st.buffer ++ ch.text)).take
            (safeTarget (st.buffer ++ ch.text)) =
            (lstrip (st.buffer ++ ch.text)).take (safeTarget (st.buffer ++ ch.text)) :=
          (take_eq_of_pre hsanpre hsafe_le).symm
        rw [hclean_take]
        exact take_append_drop_take _ (le_of_lt hemit)
      · intro p hocc
        show lsLen (st.buffer ++ ch.text) + safeTarget (st.buffer ++ ch.text) ≤ p + 11
        have hls_le_p : lsLen (st.buffer ++ ch.text) ≤ p := lsLen_le_of_occB hocc
        by_cases hfound : containsCitationToolMarker (st.buffer ++ ch.text) = true
        · obtain ⟨q', hq'⟩ : ∃ q', firstMatch (st.buffer ++ ch.text) = some q' := by
            unfold containsCitationToolMarker at hfound
            cases hx : firstMatch (st.buffer ++ ch.text) with
            | none => rw [hx] at hfound; exact absurd hfound (by simp)
            | some q => exact ⟨q, rfl⟩
          have hmin : q' ≤ p := by
            have hm := occ_to_match_of_H H hpre hocc
            by_contra hgt
            have hfalse := (firstMatch_some hq').2 p (by omega)
            rw [hm] at hfalse
            exact absurd hfalse (by simp)
          have hsafe_eq : safeTarget (st.buffer ++ ch.text) =
              (sanitizeAnswerText (st.buffer ++ ch.text)).length := by
            unfold safeTarget
            rw [if_pos hfound]
          have hsan_eq : sanitizeAnswerText (st.buffer ++ ch.text) =
              pyStrip ((st.buffer ++ ch.text).take q') := by
            unfold sanitizeAnswerText
            rw [hq']
          by_cases hnilq : lstrip ((st.buffer ++ ch.text).take q') = []
          · have hzero : (sanitizeAnswerText (st.buffer ++ ch.text)).length = 0 := by
              rw [hsan_eq, pyStrip_of_lstrip_nil hnilq]
              rfl
            omega
          · have hls_take : lsLen (st.buffer ++ ch.text) =
                lsLen ((st.buffer ++ ch.text).take q') := by
              conv_lhs => rw [← List.take_append_drop q' (st.buffer ++ ch.text)]
              rw [lsLen_append_of_ne hnilq]
            have h1 := pyStrip_length_le_lstrip ((st.buffer ++ ch.text).take q')
            have h2 := lstrip_length ((st.buffer ++ ch.text).take q')
            have h3 : ((st.buffer ++ ch.text).take q').length ≤ q' := by
              simp [List.length_take]
            have h4 := lsLen_le_length ((st.buffer ++ ch.text).take q')
            have h5 : (sanitizeAnswerText (st.buffer ++ ch.text)).length =
                (pyStrip ((st.buffer ++ ch.text).take q')).length := by rw [hsan_eq]
            omega
        · have hc := contains_of_occ_H H hpre hocc
          exact absurd hc hfound
      · intro hnf
        show safeTarget (st.buffer ++ ch.text) ≤
          (pyStrip (st.buffer ++ ch.text)).length - markerGuardLength
        have hsafe_eq : safeTarget (st.buffer ++ ch.text) =
            (sanitizeAnswerText (st.buffer ++ ch.text)).length - markerGuardLength := by
          unfold safeTarget
          rw [if_neg (by simp [hnf])]
        have hsp := sanitize_eq_strip_of_not_contains hnf
        rw [hsafe_eq, hsp]
    · rw [processChunk_noemit st ch hnil hemit]
      refine ⟨?_, ?_, ?_, ?_⟩
      · show st.emitted ≤ (pyStrip (st.buffer ++ ch.text)).length
        omega
      · show st.events.flatten = (lstrip (st.buffer ++ ch.text)).take st.emitted
        rw [inv1, hflat_agree]
      · intro p hocc
        show lsLen (st.buffer ++ ch.text) + st.emitted ≤ p + 11
        have hls_le_p : lsLen (st.buffer ++ ch.text) ≤ p := lsLen_le_of_occB hocc
        by_cases hBnil : lstrip st.buffer = []
        · have hzero : (pyStrip st.buffer).length = 0 := by
            rw [pyStrip_of_lstrip_nil hBnil]
            rfl
          omega
        · have hls_eq : lsLen (st.buffer ++ ch.text) = lsLen st.buffer :=
            lsLen_append_of_ne hBnil ch.text
          by_cases hinside : p + 12 ≤ st.buffer.length
          · have hoccB : occB st.buffer p = true := occB_append_inv hocc hinside
            have := inv2 p hoccB
            omega
          · have h2 := lstrip_length st.buffer
            have h3 := lsLen_le_length st.buffer
            omega
      · intro hnf
        show st.emitted ≤ (pyStrip (st.buffer ++ ch.text)).length - markerGuardLength
        have hnfB : containsCitationToolMarker st.buffer = false := by
          by_contra hx
          have hx' : containsCitationToolMarker st.buffer = true := by
            revert hx; cases containsCitationToolMarker st.buffer <;> simp
          unfold containsCitationToolMarker at hx'
          cases hfm : firstMatch st.buffer with
          | none => rw [hfm] at hx'; exact absurd hx' (by simp)
          | some q =>
            have hocc := matchAtB_occB (firstMatch_some hfm).1
            have hoccB' : occB (st.buffer ++ ch.text) q = true :=
              occB_append_left hocc ch.text
            have hcB' := contains_of_occ_H H hpre hoccB'
            rw [hcB'] at hnf
            exact absurd hnf (by simp)
        have := inv3 hnfB
        omega

theorem textInv_fold {F : List Char}
    (H : ∀ p, occB F p = true → matchAtB F p = true) :
    ∀ (l : List StreamChunk) (st : StreamState),
      TextInv st → st.buffer ++ (l.map StreamChunk.text).flatten <+: F →
      TextInv (l.foldl processChunk st) := by
  intro l
  induction l with
  | nil =>
    intro st h _
    simpa using h
  | cons ch rest ih =>
    intro st hinv hpre
    simp only [List.map_cons, List.flatten_cons] at hpre
    simp only [List.foldl_cons]
    have hpre1 : st.buffer ++ ch.text <+: F := by
      refine List.IsPrefix.trans ?_ hpre
      rw [← List.append_assoc]
      exact List.prefix_append _ _
    have hinv' := textInv_step H st ch hpre1 hinv
    refine ih (processChunk st ch) hinv' ?_
    rw [processChunk_buffer, List.append_assoc]
    exact hpre

theorem textInv_run {F : List Char} (chunks : List StreamChunk)
    (hF : (chunks.map StreamChunk.text).flatten = F)
    (H : ∀ p, occB F p = true → matchAtB F p = true) :
    TextInv (runStream chunks) := by
  refine textInv_fold H chunks initialStreamState textInv_init ?_
  show [] ++ (chunks.map StreamChunk.text).flatten <+: F
  rw [List.nil_append, hF]

/-- No case-insensitive marker occurrence survives in the total released text. -/
theorem no_occ_flatten_of_textInv {st : StreamState} (hinv : TextInv st) :
    ∀ p, occB st.events.flatten p = false := by
  obtain ⟨inv0, inv1, inv2, _⟩ := hinv
  intro p
  by_contra hx
  have hocc : occB st.events.flatten p = true := by
    revert hx; cases occB st.events.flatten p <;> simp
  rw [inv1] at hocc
  have hlen := occB_length hocc
  have hlen2 : p + 12 ≤ st.emitted := by
    simp only [List.length_take] at hlen
    omega
  have h1 : occB (lstrip st.buffer) p = true := occB_take_inv hocc
  rw [lstrip_eq_drop] at h1
  have h2 : occB st.buffer (lsLen st.buffer + p) = true := occB_drop_shift h1
  have := inv2 _ h2
  omega

/-- The first two components of `TextInv` — released text is exactly the first
`emitted` characters of the left-stripped buffer, and `emitted` stays within
the stripped buffer — are preserved by every step, with no assumption on the
upstream text. -/
theorem textInv01_step (st : StreamState) (ch : StreamChunk)
    (inv0 : st.emitted ≤ (pyStrip st.buffer).length)
    (inv1 : st.events.flatten = (lstrip st.buffer).take st.emitted) :
    (processChunk st ch).emitted ≤ (pyStrip (processChunk st ch).buffer).length ∧
    (processChunk st ch).events.flatten =
      (lstrip (processChunk st ch).buffer).take (processChunk st ch).emitted := by
  by_cases hnil : ch.text = []
  · rw [processChunk_nil st ch hnil]
    exact ⟨inv0, inv1⟩
  · have hsanpre : sanitizeAnswerText (st.buffer ++ ch.text) <+:
        lstrip (st.buffer ++ ch.text) := sanitize_pre_lstrip _
    have hsafe_le := safeTarget_le (st.buffer ++ ch.text)
    have hsan_le := sanitize_length_le_strip (st.buffer ++ ch.text)
    have hstrip_mono := pyStrip_length_mono_app st.buffer ch.text
    have hstrip_lstrip := pyStrip_length_le_lstrip st.buffer
    have hflat_agree : (lstrip st.buffer).take st.emitted =
        (lstrip (st.buffer ++ ch.text)).take st.emitted := by
      by_cases hBnil : lstrip st.buffer = []
      · have hzero : (pyStrip st.buffer).length = 0 := by
          rw [pyStrip_of_lstrip_nil hBnil]
          rfl
        have h0 : st.emitted = 0 := by omega
        rw [h0]
        simp
      · refine (take_eq_of_pre (lstrip_pre_mono ⟨ch.text, rfl⟩) ?_).symm
        omega
    by_cases hemit : st.emitted < safeTarget (st.buffer ++ ch.text)
    · rw [processChunk_emit st ch hnil hemit]
      have htokne := emit_token_ne hemit
      refine ⟨?_, ?_⟩
      · show safeTarget (st.buffer ++ ch.text) ≤
          (pyStrip (st.buffer ++ ch.text)).length
        omega
      · show (st.events ++
            (if ((sanitizeAnswerText (st.buffer ++ ch.text)).take
                (safeTarget (st.buffer ++ ch.text))).drop st.emitted = [] then []
              else [((sanitizeAnswerText (st.buffer ++ ch.text)).take
                (safeTarget (st.buffer ++ ch.text))).drop st.emitted])).flatten =
          (lstrip (st.buffer ++ ch.text)).take (safeTarget (st.buffer ++ ch.text))
        rw [if_neg htokne, List.flatten_append, List.flatten_cons, List.flatten_nil,
          List.append_nil, inv1, hflat_agree]
        have hclean_take : (sanitizeAnswerText (st.buffer ++ ch.text)).take
            (safeTarget (st.buffer ++ ch.text)) =
            (lstrip (st.buffer ++ ch.text)).take (safeTarget (st.buffer ++ ch.text)) :=
          (take_eq_of_pre hsanpre hsafe_le).symm
        rw [hclean_take]
        exact take_append_drop_take _ (le_of_lt hemit)
    · rw [processChunk_noemit st ch hnil hemit]
      refine ⟨?_, ?_⟩
      · show st.emitted ≤ (pyStrip (st.buffer ++ ch.text)).length
        omega
      · show st.events.flatten = (lstrip (st.buffer ++ ch.text)).take st.emitted
        rw [inv1, hflat_agree]

/-- The unconditional released-text identity over a whole run. -/
theorem textInv01_fold : ∀ (cs : List StreamChunk) (st : StreamState),
    st.emitted ≤ (pyStrip st.buffer).length →
    st.events.flatten = (lstrip st.buffer).take st.emitted →
    (cs.foldl processChunk st).emitted ≤
      (pyStrip (cs.foldl processChunk st).buffer).length ∧
    (cs.foldl processChunk st).events.flatten =
      (lstrip (cs.foldl processChunk st).buffer).take
        (cs.foldl processChunk st).emitted := by
  intro cs
  induction cs with
  | nil => exact fun st h0 h1 => ⟨h0, h1⟩
  | cons c rest ih =>
    intro st h0 h1
    have hstep := textInv01_step st c h0 h1
    exact ih (processChunk st c) hstep.1 hstep.2

/-- C1 (amended): for every stream, unconditionally, the concatenation of the
emitted token events is exactly the first `emitted` characters of the
left-stripped buffer — in particular the total released text has exactly
`emitted` characters.  Provided additionally that every case-insensitive
occurrence of `CitationTool` in the concatenated upstream text is a whole-word
occurrence, no emitted token event — nor any prefix-concatenation of the
emitted tokens — contains the marker, even case-insensitively and however the
input is chunked, and while no complete whole-word marker has been found the
emitter withholds the last `markerLength - 1` characters of the sanitized
buffer.  (For streams breaking the whole-word proviso the no-leakage clauses
fail, see the counterexample.) -/
theorem c1_no_marker_leakage_amended (chunks : List StreamChunk) :
    ((runStream chunks).events.flatten =
      (lstrip (runStream chunks).buffer).take (runStream chunks).emitted) ∧
    ((runStream chunks).events.flatten.length = (runStream chunks).emitted) ∧
    ((List.range (chunks.map StreamChunk.text).flatten.length).all
        (fun p => !occB (chunks.map StreamChunk.text).flatten p ||
          matchAtB (chunks.map StreamChunk.text).flatten p) = true →
      (∀ k p, occB (((runStream chunks).events.take k).flatten) p = false) ∧
      (∀ e ∈ (runStream chunks).events, ∀ p, occB e p = false) ∧
      (containsCitationToolMarker (runStream chunks).buffer = false →
        (runStream chunks).emitted ≤
          (sanitizeAnswerText (runStream chunks).buffer).length -
            markerGuardLength)) := by
  have h01 : (runStream chunks).emitted ≤ (pyStrip (runStream chunks).buffer).length ∧
      (runStream chunks).events.flatten =
        (lstrip (runStream chunks).buffer).take (runStream chunks).emitted :=
    textInv01_fold chunks initialStreamState (Nat.zero_le _) rfl
  obtain ⟨inv0u, inv1u⟩ := h01
  refine ⟨inv1u, ?_, ?_⟩
  · rw [inv1u]
    simp only [List.length_take]
    have := pyStrip_length_le_lstrip (runStream chunks).buffer
    rw [lstrip_length] at this ⊢
    omega
  · intro H
    set F := (chunks.map StreamChunk.text).flatten with hF
    have H' : ∀ p, occB F p = true → matchAtB F p = true := by
      intro p hp
      by_cases hlt : p < F.length
      · have := List.all_eq_true.mp H p (List.mem_range.mpr hlt)
        simp only [Bool.or_eq_true, Bool.not_eq_true'] at this
        rcases this with h1 | h2
        · rw [hp] at h1
          exact absurd h1 (by simp)
        · exact h2
      · have : occB F p = false := occB_false_of_lt (by omega)
        rw [this] at hp
        exact absurd hp (by simp)
    have hinv := textInv_run chunks rfl H'
    have hmain := no_occ_flatten_of_textInv hinv
    obtain ⟨inv0, inv1, _, inv3⟩ := hinv
    refine ⟨?_, ?_, ?_⟩
    · intro k p
      by_contra hx
      have hocc : occB (((runStream chunks).events.take k).flatten) p = true := by
        revert hx; cases occB (((runStream chunks).events.take k).flatten) p <;> simp
      have := occB_pre_of (flatten_take_pre _ k) hocc
      rw [hmain p] at this
      exact absurd this (by simp)
    · intro e he p
      by_contra hx
      have hocc : occB e p = true := by
        revert hx; cases occB e p <;> simp
      obtain ⟨l1, l2, hsplit⟩ := List.append_of_mem he
      have h1 : occB (e ++ l2.flatten) p = true := occB_append_left hocc _
      have h2 : occB (l1.flatten ++ (e ++ l2.flatten)) (l1.flatten.length + p) = true :=
        occB_append_shift h1 _
      have h3 : (runStream chunks).events.flatten =
          l1.flatten ++ (e ++ l2.flatten) := by
        rw [hsplit, List.flatten_append, List.flatten_cons]
      rw [← h3] at h2
      rw [hmain _] at h2
      exact absurd h2 (by simp)
    · intro hnf
      have hsp := sanitize_eq_strip_of_not_contains hnf
      rw [hsp]
      exact inv3 hnf

/-- C1 counterexample to the claim as stated: a single upstream chunk in which
the marker appears embedded in a longer word makes the emitter release the
token `"CitationTool"` itself — an emitted `Token` event (and hence the
prefix-concatenation of emitted tokens) contains the marker verbatim. -/
theorem c1_claim_counterexample :
    (runStream [textChunk "CitationToolZ0123456789".toList]).events =
      ["CitationTool".toList] ∧
    occB (((runStream [textChunk "CitationToolZ0123456789".toList]).events).flatten)
      0 = true ∧
    ∃ e ∈ (runStream [textChunk "CitationToolZ0123456789".toList]).events,
      occB e 0 = true := by
  refine ⟨by decide, by decide, "CitationTool".toList, by decide, by decide⟩

/-- Witness for the amended C1 at a concrete stream: the marker appears as a
whole word, split across chunk boundaries; the released text is the announced
prefix of the stripped buffer and nothing leaked. -/
theorem c1_no_marker_leakage_amended_witness :
    ((runStream [textChunk "Hello ".toList, textChunk "Citat".toList,
        textChunk "ionTool here".toList]).events.flatten =
      (lstrip (runStream [textChunk "Hello ".toList, textChunk "Citat".toList,
        textChunk "ionTool here".toList]).buffer).take
        (runStream [textChunk "Hello ".toList, textChunk "Citat".toList,
          textChunk "ionTool here".toList]).emitted) ∧
    ((runStream [textChunk "Hello ".toList, textChunk "Citat".toList,
        textChunk "ionTool here".toList]).events.flatten.length =
      (runStream [textChunk "Hello ".toList, textChunk "Citat".toList,
        textChunk "ionTool here".toList]).emitted) ∧
    ((∀ k p, occB (((runStream [textChunk "Hello ".toList, textChunk "Citat".toList,
        textChunk "ionTool here".toList]).events.take k).flatten) p = false) ∧
      (∀ e ∈ (runStream [textChunk "Hello ".toList, textChunk "Citat".toList,
        textChunk "ionTool here".toList]).events, ∀ p, occB e p = false) ∧
      (containsCitationToolMarker (runStream [textChunk "Hello ".toList,
          textChunk "Citat".toList, textChunk "ionTool here".toList]).buffer = false →
        (runStream [textChunk "Hello ".toList, textChunk "Citat".toList,
          textChunk "ionTool here".toList]).emitted ≤
          (sanitizeAnswerText (runStream [textChunk "Hello ".toList,
            textChunk "Citat".toList, textChunk "ionTool here".toList]).buffer).length -
            markerGuardLength)) :=
  ⟨(c1_no_marker_leakage_amended [textChunk "Hello ".toList, textChunk "Citat".toList,
      textChunk "ionTool here".toList]).1,
    (c1_no_marker_leakage_amended [textChunk "Hello ".toList, textChunk "Citat".toList,
      textChunk "ionTool here".toList]).2.1,
    (c1_no_marker_leakage_amended [textChunk "Hello ".toList, textChunk "Citat".toList,
      textChunk "ionTool here".toList]).2.2 (by decide)⟩

/-! ## Truncation-point monotonicity and mid-stream failure (C6) -/

theorem truncPoint_le_length (s : List Char) : truncPoint s ≤ s.length := by
  unfold truncPoint
  cases h : firstMatch s with
  | none => simp
  | some p =>
    simp only [Option.getD_some]
    have := firstMatch_lt_length h
    omega

theorem truncPoint_step (B c : List Char) :
    min (truncPoint B) (B.length - 11) ≤ truncPoint (B ++ c) := by
  have hBle := truncPoint_le_length B
  cases hq : firstMatch (B ++ c) with
  | none =>
    have hTP : truncPoint (B ++ c) = (B ++ c).length := by
      unfold truncPoint
      rw [hq]
      rfl
    rw [hTP]
    simp only [List.length_append]
    omega
  | some q' =>
    have hTP : truncPoint (B ++ c) = q' := by
      unfold truncPoint
      rw [hq]
      rfl
    rw [hTP]
    by_cases hin : q' + 12 ≤ B.length
    · have hm := (firstMatch_some hq).1
      have hocc := occB_append_inv (matchAtB_occB hm) hin
      have hmB := matchAtB_append_inv hm hocc
      obtain ⟨qB, hqB, hle⟩ := firstMatch_of_match hmB
      have hTB : truncPoint B ≤ q' := by
        unfold truncPoint
        rw [hqB]
        simpa using hle
      omega
    · omega

theorem minTrunc_mono (B c : List Char) :
    min (truncPoint B) (B.length - 11) ≤
      min (truncPoint (B ++ c)) ((B ++ c).length - 11) := by
  have h1 := truncPoint_step B c
  have h2 : B.length ≤ (B ++ c).length := by
    simp only [List.length_append]
    omega
  omega

theorem dropWhile_head_false {p : α → Bool} {l : List α} {c : α} {t : List α}
    (h : l.dropWhile p = c :: t) : p c = false := by
  induction l with
  | nil => simp [List.dropWhile] at h
  | cons a l ih =>
    rw [List.dropWhile_cons] at h
    by_cases hp : p a = true
    · rw [if_pos hp] at h
      exact ih h
    · rw [if_neg hp] at h
      cases h
      exact Bool.eq_false_iff.mpr hp

theorem pyStrip_ne_of_nonspace {x : List Char} {c : Char} (hc : c ∈ x)
    (hns : pyIsSpace c = false) : pyStrip x ≠ [] := by
  intro hnil
  obtain ⟨t, ht, hts⟩ := rstrip_decomp (lstrip x)
  have hps : rstrip (lstrip x) = pyStrip x := rfl
  rw [hps, hnil, List.nil_append] at ht
  have hx : x = x.takeWhile pyIsSpace ++ lstrip x :=
    (List.takeWhile_append_dropWhile pyIsSpace x).symm
  rw [hx] at hc
  rcases List.mem_append.mp hc with h1 | h2
  · have := List.mem_takeWhile_imp h1
    rw [hns] at this
    exact absurd this (by simp)
  · rw [ht] at h2
    have := hts c h2
    rw [hns] at this
    exact absurd this (by simp)

theorem getD_drop_zero (B : List Char) (n : Nat) :
    (B.drop n).getD 0 ' ' = B.getD n ' ' := by
  by_cases hn : n < B.length
  · rw [getD_of_lt (by simp only [List.length_drop]; omega) ' ', getD_of_lt hn ' ']
    simp [List.getElem_drop]
  · rw [getD_of_ge (by simp only [List.length_drop]; omega) ' ', getD_of_ge (by omega) ' ']

theorem nonspace_at_lsLen {B : List Char} (h : lstrip B ≠ []) :
    pyIsSpace (B.getD (lsLen B) ' ') = false := by
  match hl : lstrip B with
  | [] => exact absurd hl h
  | c :: t =>
    have hcs := dropWhile_head_false hl
    have hd : B.drop (lsLen B) = c :: t := by
      rw [← lstrip_eq_drop]
      exact hl
    have h0 : B.getD (lsLen B) ' ' = c := by
      rw [← getD_drop_zero B (lsLen B), hd]
      rfl
    rw [h0]
    exact hcs

theorem sanitize_ne_of_W {B : List Char}
    (h : lsLen B < min (truncPoint B) (B.length - 11)) :
    sanitizeAnswerText B ≠ [] := by
  have hT : lsLen B < truncPoint B := by omega
  have h2 : lsLen B < B.length := by
    have := truncPoint_le_length B
    omega
  have hlne : lstrip B ≠ [] := by
    intro hx
    have := lsLen_eq_of_lstrip_nil hx
    omega
  have hns := nonspace_at_lsLen hlne
  rw [sanitize_eq_strip_take]
  refine pyStrip_ne_of_nonspace (c := B.getD (lsLen B) ' ') ?_ hns
  rw [getD_of_lt h2]
  have hlt : lsLen B < (B.take (truncPoint B)).length := by
    simp only [List.length_take]
    omega
  have heq : (B.take (truncPoint B))[lsLen B] = B[lsLen B] := by
    simp [List.getElem_take]
  rw [← heq]
  exact List.getElem_mem _

theorem wInv_step (st : StreamState) (ch : StreamChunk) (hW : WInv st) :
    WInv (processChunk st ch) := by
  by_cases hnil : ch.text = []
  · rw [processChunk_nil st ch hnil]
    intro hne
    exact hW hne
  · by_cases hemit : st.emitted < safeTarget (st.buffer ++ ch.text)
    · rw [processChunk_emit st ch hnil hemit]
      intro _
      show lsLen (st.buffer ++ ch.text) <
        min (truncPoint (st.buffer ++ ch.text)) ((st.buffer ++ ch.text).length - 11)
      have hs1 : 1 ≤ safeTarget (st.buffer ++ ch.text) := by omega
      by_cases hfound : containsCitationToolMarker (st.buffer ++ ch.text) = true
      · obtain ⟨q', hq'⟩ : ∃ q', firstMatch (st.buffer ++ ch.text) = some q' := by
          unfold containsCitationToolMarker at hfound
          cases hx : firstMatch (st.buffer ++ ch.text) with
          | none => rw [hx] at hfound; exact absurd hfound (by simp)
          | some q => exact ⟨q, rfl⟩
        have hTP : truncPoint (st.buffer ++ ch.text) = q' := by
          unfold truncPoint
          rw [hq']
          rfl
        have hq'len := firstMatch_lt_length hq'
        have hsafe_eq : safeTarget (st.buffer ++ ch.text) =
            (sanitizeAnswerText (st.buffer ++ ch.text)).length := by
          unfold safeTarget
          rw [if_pos hfound]
        have hsan_eq : sanitizeAnswerText (st.buffer ++ ch.text) =
            pyStrip ((st.buffer ++ ch.text).take q') := by
          unfold sanitizeAnswerText
          rw [hq']
        have hlstrip_ne : lstrip ((st.buffer ++ ch.text).take q') ≠ [] := by
          intro hx
          have hs0 : pyStrip ((st.buffer ++ ch.text).take q') = [] :=
            pyStrip_of_lstrip_nil hx
          rw [hsan_eq, hs0] at hsafe_eq
          simp only [List.length_nil] at hsafe_eq
          omega
        have hls_take : lsLen (st.buffer ++ ch.text) =
            lsLen ((st.buffer ++ ch.text).take q') := by
          conv_lhs => rw [← List.take_append_drop q' (st.buffer ++ ch.text)]
          rw [lsLen_append_of_ne hlstrip_ne]
        have h1 := lstrip_length ((st.buffer ++ ch.text).take q')
        have hlen_take : ((st.buffer ++ ch.text).take q').length = q' := by
          simp only [List.length_take]
          omega
        have hpos : 0 < (lstrip ((st.buffer ++ ch.text).take q')).length :=
          List.length_pos.mpr hlstrip_ne
        rw [hTP]
        omega
      · have hnone : firstMatch (st.buffer ++ ch.text) = none := by
          unfold containsCitationToolMarker at hfound
          cases hx : firstMatch (st.buffer ++ ch.text) with
          | none => rfl
          | some q => rw [hx] at hfound; simp at hfound
        have hTP : truncPoint (st.buffer ++ ch.text) =
            (st.buffer ++ ch.text).length := by
          unfold truncPoint
          rw [hnone]
          rfl
        have hfound' : containsCitationToolMarker (st.buffer ++ ch.text) = false := by
          unfold containsCitationToolMarker
          rw [hnone]
          rfl
        have hsafe_eq : safeTarget (st.buffer ++ ch.text) =
            (sanitizeAnswerText (st.buffer ++ ch.text)).length - markerGuardLength := by
          unfold safeTarget
          rw [if_neg (by simp [hfound'])]
        have hsan := sanitize_eq_strip_of_not_contains hfound'
        have hmg : markerGuardLength = 11 := rfl
        have h2 := pyStrip_length_le_lstrip (st.buffer ++ ch.text)
        have h3 := lstrip_length (st.buffer ++ ch.text)
        have h4 : (sanitizeAnswerText (st.buffer ++ ch.text)).length =
            (pyStrip (st.buffer ++ ch.text)).length := by rw [hsan]
        have h5 := lsLen_le_length (st.buffer ++ ch.text)
        rw [hTP]
        omega
    · rw [processChunk_noemit st ch hnil hemit]
      intro hne
      show lsLen (st.buffer ++ ch.text) <
        min (truncPoint (st.buffer ++ ch.text)) ((st.buffer ++ ch.text).length - 11)
      have hprev := hW hne
      have hmono := minTrunc_mono st.buffer ch.text
      have hlne : lstrip st.buffer ≠ [] := by
        intro hx
        have h1 := lsLen_eq_of_lstrip_nil hx
        have h2 := truncPoint_le_length st.buffer
        omega
      have hls_eq := lsLen_append_of_ne hlne ch.text
      omega

theorem wInv_fold : ∀ (l : List StreamChunk) (st : StreamState),
    WInv st → WInv (l.foldl processChunk st) := by
  intro l
  induction l with
  | nil => intro st h; exact h
  | cons ch rest ih =>
    intro st h
    exact ih _ (wInv_step st ch h)

theorem wInv_init : WInv initialStreamState := fun h => absurd rfl h

theorem foldl_buffer_eq : ∀ (l : List StreamChunk) (st : StreamState),
    (l.foldl processChunk st).buffer = st.buffer ++ (l.map StreamChunk.text).flatten := by
  intro l
  induction l with
  | nil => intro st; simp
  | cons ch rest ih =>
    intro st
    simp only [List.foldl_cons, List.map_cons, List.flatten_cons]
    rw [ih, processChunk_buffer, List.append_assoc]

theorem runStream_buffer (chunks : List StreamChunk) :
    (runStream chunks).buffer = (chunks.map StreamChunk.text).flatten := by
  unfold runStream
  rw [foldl_buffer_eq]
  rfl

theorem sanitize_ne_of_events {chunks : List StreamChunk}
    (h : (runStream chunks).events ≠ []) :
    sanitizeAnswerText (runStream chunks).buffer ≠ [] := by
  have hW := wInv_fold chunks initialStreamState wInv_init
  exact sanitize_ne_of_W (hW h)

/-- C6: if the upstream model stream raises after at least one visible token has
been emitted, the pipeline emits a terminal `Final` event carrying the text
sanitized so far together with the fallback citations, the failure does not
propagate, and no `Error` event is emitted; if the upstream stream raises
before producing any text, the failure propagates to the caller. -/
theorem c6_midstream_failure_degradation
    (parsePayload : List Char → Option (List CitationM))
    (uuidCanon : List Char → Option (List Char))
    (retrievedDocs : List DocumentM) (chunks : List StreamChunk)
    (genResult : Option ChatResponseM) :
    ((runStream chunks).events ≠ [] →
      streamAnswerEvents parsePayload uuidCanon retrievedDocs chunks true genResult =
        (tokenEvents (runStream chunks) ++
          [.finalEv (sanitizeAnswerText (runStream chunks).buffer)
            (fallbackCitationsFromDocs uuidCanon retrievedDocs)], false) ∧
      ∀ e ∈ (streamAnswerEvents parsePayload uuidCanon retrievedDocs chunks true
          genResult).1, e.isError = false) ∧
    ((chunks.map StreamChunk.text).flatten = [] →
      streamAnswerEvents parsePayload uuidCanon retrievedDocs chunks true genResult =
        (tokenEvents (runStream chunks), true)) := by
  constructor
  · intro hne
    have hsan := sanitize_ne_of_events hne
    have hout : streamAnswerEvents parsePayload uuidCanon retrievedDocs chunks true
        genResult =
        (tokenEvents (runStream chunks) ++
          [.finalEv (sanitizeAnswerText (runStream chunks).buffer)
            (fallbackCitationsFromDocs uuidCanon retrievedDocs)], false) := by
      unfold streamAnswerEvents
      simp only [if_true]
      rw [if_neg hsan]
    refine ⟨hout, ?_⟩
    intro e he
    rw [hout] at he
    rcases List.mem_append.mp he with h1 | h2
    · obtain ⟨tok, _, htok⟩ := List.mem_map.mp h1
      rw [← htok]
      rfl
    · have : e = .finalEv (sanitizeAnswerText (runStream chunks).buffer)
          (fallbackCitationsFromDocs uuidCanon retrievedDocs) := by simpa using h2
      rw [this]
      rfl
  · intro hflat
    have hbuf : (runStream chunks).buffer = [] := by
      rw [runStream_buffer, hflat]
    have hsan : sanitizeAnswerText (runStream chunks).buffer = [] := by
      rw [hbuf]
      rfl
    unfold streamAnswerEvents
    simp only [if_true]
    rw [if_pos hsan]

/-- Witness for C6: a stream that emitted a token before failing produces a
`Final` with the sanitized text and fallback citations; an empty stream's
failure propagates. -/
theorem c6_midstream_failure_degradation_witness :
    (streamAnswerEvents (fun _ => none) (fun _ => none) [sampleDoc "doc text"]
        [textChunk "Hello wonderful world".toList] true none =
      (tokenEvents (runStream [textChunk "Hello wonderful world".toList]) ++
        [.finalEv (sanitizeAnswerText
            (runStream [textChunk "Hello wonderful world".toList]).buffer)
          (fallbackCitationsFromDocs (fun _ => none) [sampleDoc "doc text"])], false) ∧
      ∀ e ∈ (streamAnswerEvents (fun _ => none) (fun _ => none) [sampleDoc "doc text"]
          [textChunk "Hello wonderful world".toList] true none).1,
        e.isError = false) ∧
    streamAnswerEvents (fun _ => none) (fun _ => none) [sampleDoc "doc text"] [] true none =
      (tokenEvents (runStream []), true) :=
  ⟨(c6_midstream_failure_degradation (fun _ => none) (fun _ => none)
      [sampleDoc "doc text"] [textChunk "Hello wonderful world".toList] none).1
    (by decide),
    (c6_midstream_failure_degradation (fun _ => none) (fun _ => none)
      [sampleDoc "doc text"] [] none).2 (by decide)⟩

/-! ## C5 — citation fallback in the terminal Final event -/

theorem foldl_bounded_mem {α β : Type} (f : List β → α → List β)
    (P : α → β → Prop)
    (hstep_len : ∀ acc a, (f acc a).length ≤ acc.length + 1)
    (hstep_mem : ∀ acc a c, c ∈ f acc a → c ∈ acc ∨ P a c) :
    ∀ (L : List α) (acc : List β),
      (L.foldl f acc).length ≤ acc.length + L.length ∧
      ∀ c ∈ L.foldl f acc, c ∈ acc ∨ ∃ d ∈ L, P d c := by
  intro L
  induction L with
  | nil => intro acc; simp
  | cons d rest ih =>
    intro acc
    refine ⟨?_, ?_⟩
    · have h1 := (ih (f acc d)).1
      have h2 := hstep_len acc d
      simp only [List.foldl_cons, List.length_cons]
      omega
    · intro c hc
      simp only [List.foldl_cons] at hc
      rcases (ih (f acc d)).2 c hc with h | ⟨d', hd', hP⟩
      · rcases hstep_mem acc d c h with h' | hP
        · exact Or.inl h'
        · exact Or.inr ⟨d, List.mem_cons_self d rest, hP⟩
      · exact Or.inr ⟨d', List.mem_cons_of_mem d hd', hP⟩

/-- C5 counterexample to the claim as stated: with no tool-call fragments at all
(nothing parseable in the side channel) but an empty streamed answer, the
`generate_answer` recovery path supplies its own citations, and the terminal
Final event carries those — not the deterministic fallback synthesized from the
retrieved chunks. -/
theorem c5_claim_counterexample :
    (streamAnswerEvents (fun _ => none) (fun _ => none) [sampleDoc "hello"] [] false
        (some ⟨"Hi there".toList,
          [⟨"quoted".toList, ⟨zerosUuid, "other.pdf", 7⟩⟩]⟩)).1 =
      [.finalEv "Hi there".toList [⟨"quoted".toList, ⟨zerosUuid, "other.pdf", 7⟩⟩]] ∧
    parseCitationsFromBuffers (fun _ => none) (runStream []).toolBuffers = [] ∧
    [(⟨"quoted".toList, ⟨zerosUuid, "other.pdf", 7⟩⟩ : CitationM)] ≠
      fallbackCitationsFromDocs (fun _ => none) [sampleDoc "hello"] := by
  refine ⟨by decide, by decide, by decide⟩

/-- C5 (amended): when the streamed side channel yields no parseable citations
and either the streamed answer text is non-empty or the recovery answer carries
no citations of its own, the terminal Final event's citations are exactly the
deterministic fallback synthesized from the retrieved chunks; a mid-stream
upstream failure with salvageable text always uses that fallback; and the
fallback is capped at 3 entries, each snippet a verbatim 600-character
truncation of a top-3 chunk's stripped content.  (Without the recovery-path
proviso the claim fails, see the counterexample.) -/
theorem c5_citation_fallback_amended (parsePayload : List Char → Option (List CitationM))
    (uuidCanon : List Char → Option (List Char)) (retrievedDocs : List DocumentM)
    (chunks : List StreamChunk) (genResult : Option ChatResponseM) :
    (parseCitationsFromBuffers parsePayload (runStream chunks).toolBuffers = [] →
      (∀ resp, genResult = some resp → resp.citations = []) →
      ∃ a, (streamAnswerEvents parsePayload uuidCanon retrievedDocs chunks false
          genResult).1 =
        tokenEvents (runStream chunks) ++
          [.finalEv a (fallbackCitationsFromDocs uuidCanon retrievedDocs)]) ∧
    (sanitizeAnswerText (runStream chunks).buffer ≠ [] →
      (streamAnswerEvents parsePayload uuidCanon retrievedDocs chunks true
          genResult).1 =
        tokenEvents (runStream chunks) ++
          [.finalEv (sanitizeAnswerText (runStream chunks).buffer)
            (fallbackCitationsFromDocs uuidCanon retrievedDocs)]) ∧
    (fallbackCitationsFromDocs uuidCanon retrievedDocs).length ≤ 3 ∧
    (∀ c ∈ fallbackCitationsFromDocs uuidCanon retrievedDocs,
      ∃ d ∈ retrievedDocs.take 3,
        c.source_text = (pyStrip d.page_content).take 600) := by
  have hlen : ∀ (acc : List CitationM) (doc : DocumentM),
      (if pyStrip doc.page_content = [] then acc
       else
         acc ++ [{ source_text := (pyStrip doc.page_content).take 600,
                   metadata :=
                     { document_id := coerceDocumentId uuidCanon
                         (pyOrStr doc.metadata.document_id doc.metadata.chunk_id),
                       filename := (pyOrStrS (pyOrStrS doc.metadata.filename
                         doc.metadata.source) (some "unknown")).getD "unknown",
                       page_number := coercePageNumber
                         (pyOrInt doc.metadata.page_number doc.metadata.page) } }]).length
        ≤ acc.length + 1 := by
    intro acc doc
    by_cases h : pyStrip doc.page_content = []
    · rw [if_pos h]
      omega
    · rw [if_neg h]
      simp
  have hmem : ∀ (acc : List CitationM) (doc : DocumentM) (c : CitationM),
      c ∈ (if pyStrip doc.page_content = [] then acc
           else
             acc ++ [{ source_text := (pyStrip doc.page_content).take 600,
                       metadata :=
                         { document_id := coerceDocumentId uuidCanon
                             (pyOrStr doc.metadata.document_id doc.metadata.chunk_id),
                           filename := (pyOrStrS (pyOrStrS doc.metadata.filename
                             doc.metadata.source) (some "unknown")).getD "unknown",
                           page_number := coercePageNumber
                             (pyOrInt doc.metadata.page_number doc.metadata.page) } }]) →
      c ∈ acc ∨ c.source_text = (pyStrip doc.page_content).take 600 := by
    intro acc doc c hc
    by_cases h : pyStrip doc.page_content = []
    · rw [if_pos h] at hc
      exact Or.inl hc
    · rw [if_neg h] at hc
      rcases List.mem_append.mp hc with hc | hc
      · exact Or.inl hc
      · rcases List.mem_singleton.mp hc with rfl
        exact Or.inr rfl
  have hspec := foldl_bounded_mem
    (fun (acc : List CitationM) (doc : DocumentM) =>
      let snippet := pyStrip doc.page_content
      if snippet = [] then acc
      else
        acc ++ [{ source_text := snippet.take 600,
                  metadata :=
                    { document_id := coerceDocumentId uuidCanon
                        (pyOrStr doc.metadata.document_id doc.metadata.chunk_id),
                      filename := (pyOrStrS (pyOrStrS doc.metadata.filename
                        doc.metadata.source) (some "unknown")).getD "unknown",
                      page_number := coercePageNumber
                        (pyOrInt doc.metadata.page_number doc.metadata.page) } }])
    (fun (d : DocumentM) (c : CitationM) => c.source_text = (pyStrip d.page_content).take 600)
    hlen hmem (retrievedDocs.take 3) []
  refine ⟨?_, ?_, ?_, ?_⟩
  · intro hparse hgen
    by_cases hfa : sanitizeAnswerText (runStream chunks).buffer = []
    · cases hg : genResult with
      | none =>
        refine ⟨streamFailureMessage, ?_⟩
        simp [streamAnswerEvents, hparse, hfa]
      | some resp =>
        refine ⟨sanitizeAnswerText resp.answer, ?_⟩
        have hc := hgen resp hg
        simp [streamAnswerEvents, hparse, hfa, hc]
    · refine ⟨sanitizeAnswerText (runStream chunks).buffer, ?_⟩
      simp [streamAnswerEvents, hparse, hfa]
  · intro hfa
    simp [streamAnswerEvents, hfa]
  · have h1 := hspec.1
    have h3 : (retrievedDocs.take 3).length ≤ 3 := List.length_take_le 3 retrievedDocs
    have h0 : ([] : List CitationM).length + (retrievedDocs.take 3).length ≤ 3 := by
      simp only [List.length_nil, Nat.zero_add]
      exact h3
    exact le_trans h1 h0
  · intro c hc
    rcases hspec.2 c hc with h | ⟨d, hd, hP⟩
    · exact absurd h (List.not_mem_nil c)
    · exact ⟨d, hd, hP⟩

/-- Witness for the amended C5 at a concrete stream: with an unparseable side
channel both the clean-completion path and the mid-stream-failure path end in a
Final event carrying the deterministic fallback citations. -/
theorem c5_citation_fallback_amended_witness :
    (∃ a, (streamAnswerEvents (fun _ => none) (fun _ => none) [sampleDoc "hello"]
        [textChunk "An answer.".toList] false none).1 =
      tokenEvents (runStream [textChunk "An answer.".toList]) ++
        [.finalEv a (fallbackCitationsFromDocs (fun _ => none) [sampleDoc "hello"])]) ∧
    (streamAnswerEvents (fun _ => none) (fun _ => none) [sampleDoc "hello"]
        [textChunk "An answer.".toList] true none).1 =
      tokenEvents (runStream [textChunk "An answer.".toList]) ++
        [.finalEv (sanitizeAnswerText (runStream [textChunk "An answer.".toList]).buffer)
          (fallbackCitationsFromDocs (fun _ => none) [sampleDoc "hello"])] :=
  ⟨(c5_citation_fallback_amended (fun _ => none) (fun _ => none) [sampleDoc "hello"]
      [textChunk "An answer.".toList] none).1 (by decide)
      (fun resp h => Option.noConfusion h),
    (c5_citation_fallback_amended (fun _ => none) (fun _ => none) [sampleDoc "hello"]
      [textChunk "An answer.".toList] none).2.1 (by decide)⟩

/-! ## C2 — bounded memory with FIFO eviction -/

theorem coercePositiveInt_pos (v : Option Int) (d : Nat) (hd : 0 < d) :
    0 < coercePositiveInt v d := by
  unfold coercePositiveInt
  match v with
  | none => exact hd
  | some i =>
    by_cases h : i ≤ 0
    · simp [h, hd]
    · simp only [h, if_false]
      omega

theorem maybeAdd_step (setting : Int) (J chunks : List DocumentM) :
    maybeAddDocumentsToBM25 true setting
        (J.drop (J.length - coercePositiveInt (some setting) 5000)) chunks =
      (J ++ chunks).drop
        ((J ++ chunks).length - coercePositiveInt (some setting) 5000) := by
  set M := coercePositiveInt (some setting) 5000 with hM
  have hMpos : 0 < M := coercePositiveInt_pos _ _ (by norm_num)
  unfold maybeAddDocumentsToBM25
  by_cases hc : chunks = []
  · subst hc
    simp
  · simp only [if_neg hc, Bool.not_true, Bool.false_eq_true, if_false]
    have hk : J.length - M ≤ J.length := Nat.sub_le _ _
    have hdrop : J.drop (J.length - M) ++ chunks = (J ++ chunks).drop (J.length - M) := by
      rw [List.drop_append_of_le_length hk]
    rw [hdrop]
    have hlen : ((J ++ chunks).drop (J.length - M)).length =
        (J.length + chunks.length) - (J.length - M) := by
      simp [List.length_drop, List.length_append]
    by_cases hbig : ((J ++ chunks).drop (J.length - M)).length > M
    · simp only [if_pos hbig]
      rw [List.drop_drop]
      congr 1
      rw [hlen] at hbig ⊢
      simp only [List.length_append]
      omega
    · simp only [if_neg hbig]
      have hcl : 0 < chunks.length := List.length_pos.mpr hc
      rw [hlen] at hbig
      have : J.length - M = (J ++ chunks).length - M := by
        simp only [List.length_append]
        omega
      rw [this]

theorem ingestAll_from (setting : Int) (batches : List (List DocumentM))
    (J : List DocumentM) :
    batches.foldl (maybeAddDocumentsToBM25 true setting)
        (J.drop (J.length - coercePositiveInt (some setting) 5000)) =
      (J ++ batches.flatten).drop
        ((J ++ batches.flatten).length - coercePositiveInt (some setting) 5000) := by
  induction batches generalizing J with
  | nil => simp
  | cons b bs ih =>
    simp only [List.foldl_cons, List.flatten_cons]
    rw [maybeAdd_step setting J b, ih (J ++ b), List.append_assoc]

theorem ingestAll_eq_drop (setting : Int) (batches : List (List DocumentM)) :
    ingestAll true setting batches =
      batches.flatten.drop
        (batches.flatten.length - coercePositiveInt (some setting) 5000) := by
  have h := ingestAll_from setting batches []
  simpa [ingestAll] using h

/-- C2: for every ingestion sequence against the BM25 in-memory corpus with
configured cap `M`, the corpus never exceeds `M` documents at any point of the
sequence; and once the total number of ingested chunks `N` exceeds `M`, the
corpus holds exactly `M` documents, namely the `M` most recently ingested ones
(eviction drops the longest-resident chunks from the front). -/
theorem c2_bounded_memory_fifo (setting : Int) (M : Nat)
    (hM : coercePositiveInt (some setting) 5000 = M)
    (batches : List (List DocumentM)) :
    (∀ k, (ingestAll true setting (batches.take k)).length ≤ M) ∧
    (batches.flatten.length > M →
      ingestAll true setting batches =
        batches.flatten.drop (batches.flatten.length - M) ∧
      (ingestAll true setting batches).length = M) := by
  constructor
  · intro k
    rw [ingestAll_eq_drop, hM, List.length_drop]
    omega
  · intro hN
    rw [ingestAll_eq_drop, hM, List.length_drop]
    exact ⟨rfl, by omega⟩

/-! ## C4 — graceful degradation of the hybrid retriever -/

/-- C4: with the dense index unavailable (disabled, or no embeddings model) and a
non-empty sparse index, the built retriever's search is exactly the sparse
search, with no fusion; with the dense index available and the sparse index
empty or disabled, it is exactly the dense search; with neither available,
`NotReady` is raised. -/
theorem c4_graceful_degradation (cfg : RetConfig) (embeddingsPresent : Bool)
    (docs : List DocumentM) (denseK bm25K : Nat) (denseWeight : Rat)
    (bm25Search : List DocumentM → Nat → List Char → List DocumentM)
    (denseSearch : Nat → List Char → List DocumentM)
    (ensembleSearch : List DocumentM → Nat → Nat → Rat → List Char → List DocumentM)
    (query : List Char) :
    ((cfg.denseEnabled = false ∨ embeddingsPresent = false) →
      cfg.bm25Enabled = true → docs ≠ [] →
      ∃ r, buildHybridRetriever cfg embeddingsPresent docs denseK bm25K denseWeight =
          .ok r ∧
        searchWith bm25Search denseSearch ensembleSearch r query =
          bm25Search docs bm25K query) ∧
    (cfg.denseEnabled = true → embeddingsPresent = true →
      (cfg.bm25Enabled = false ∨ docs = []) →
      ∃ r, buildHybridRetriever cfg embeddingsPresent docs denseK bm25K denseWeight =
          .ok r ∧
        searchWith bm25Search denseSearch ensembleSearch r query =
          denseSearch denseK query) ∧
    ((cfg.denseEnabled = false ∨ embeddingsPresent = false) →
      (cfg.bm25Enabled = false ∨ docs = []) →
      buildHybridRetriever cfg embeddingsPresent docs denseK bm25K denseWeight =
        .error notReadyBuildMessage) := by
  refine ⟨fun hdense hb hd => ?_, fun hd he hsp => ?_, fun hdense hsp => ?_⟩
  · refine ⟨.sparseOnly docs bm25K, ?_, rfl⟩
    have hde : (cfg.denseEnabled && embeddingsPresent) = false := by
      rcases hdense with h | h <;> simp [h]
    have hue : (cfg.bm25Enabled && !docs.isEmpty) = true := by
      simp [hb, List.isEmpty_iff, hd]
    simp [buildHybridRetriever, hde, hue]
  · refine ⟨.denseOnly denseK, ?_, rfl⟩
    have hde : (cfg.denseEnabled && embeddingsPresent) = true := by simp [hd, he]
    have hue : (cfg.bm25Enabled && !docs.isEmpty) = false := by
      rcases hsp with h | h <;> simp [h]
    simp [buildHybridRetriever, hde, hue]
  · have hde : (cfg.denseEnabled && embeddingsPresent) = false := by
      rcases hdense with h | h <;> simp [h]
    have hue : (cfg.bm25Enabled && !docs.isEmpty) = false := by
      rcases hsp with h | h <;> simp [h]
    simp [buildHybridRetriever, hde, hue]

/-- Witness for C4 at three concrete configurations: dense disabled (sparse-only
search), sparse empty with dense enabled (dense-only search), and both
unavailable (`NotReady`). -/
theorem c4_graceful_degradation_witness :
    (∃ r, buildHybridRetriever ⟨true, false, 100⟩ false [sampleDoc "a"] 3 3 (1/2) =
        .ok r ∧
      searchWith (fun _ _ _ => [sampleDoc "a"]) (fun _ _ => []) (fun _ _ _ _ _ => [])
          r "q".toList =
        (fun _ _ _ => [sampleDoc "a"]) [sampleDoc "a"] 3 "q".toList) ∧
    (∃ r, buildHybridRetriever ⟨true, true, 100⟩ true [] 3 3 (1/2) = .ok r ∧
      searchWith (fun _ _ _ => []) (fun _ _ => [sampleDoc "b"]) (fun _ _ _ _ _ => [])
          r "q".toList =
        (fun _ _ => [sampleDoc "b"]) 3 "q".toList) ∧
    (buildHybridRetriever ⟨true, false, 100⟩ false [] 3 3 (1/2) =
      .error notReadyBuildMessage) :=
  ⟨(c4_graceful_degradation ⟨true, false, 100⟩ false [sampleDoc "a"] 3 3 (1/2)
      (fun _ _ _ => [sampleDoc "a"]) (fun _ _ => []) (fun _ _ _ _ _ => [])
      "q".toList).1 (Or.inl rfl) rfl (by decide),
    (c4_graceful_degradation ⟨true, true, 100⟩ true [] 3 3 (1/2)
      (fun _ _ _ => []) (fun _ _ => [sampleDoc "b"]) (fun _ _ _ _ _ => [])
      "q".toList).2.1 rfl rfl (Or.inr rfl),
    (c4_graceful_degradation ⟨true, false, 100⟩ false [] 3 3 (1/2)
      (fun _ _ _ => []) (fun _ _ => []) (fun _ _ _ _ _ => [])
      "q".toList).2.2 (Or.inl rfl) (Or.inr rfl)⟩

/-! ## C7 — rehydration robustness -/

theorem extractLoop_limit_none (lines : List StoreLine) (count : Nat) :
    extractLoop lines none count = lines.filterMap lineDocument := by
  induction lines generalizing count with
  | nil => rfl
  | cons l rest ih =>
    unfold extractLoop
    simp only [List.filterMap_cons]
    match h : lineDocument l with
    | none => simpa [h] using ih count
    | some d => simpa [h] using ih (count + 1)

theorem extractLoop_limit_some (lines : List StoreLine) (m count : Nat) :
    extractLoop lines (some m) count =
      (lines.filterMap lineDocument).take (m - count) := by
  induction lines generalizing count with
  | nil => simp [extractLoop]
  | cons l rest ih =>
    unfold extractLoop
    by_cases hstop : count ≥ m
    · have : m - count = 0 := by omega
      simp [hstop, this]
    · simp only [List.filterMap_cons, ge_iff_le, decide_eq_true_eq, hstop, if_false]
      match h : lineDocument l with
      | none => simpa [h, hstop] using ih count
      | some d =>
        have hklt : 0 < m - count := by omega
        have : m - count = (m - (count + 1)) + 1 := by omega
        simp [h, hstop, this, ih (count + 1)]

/-- C7: loading all chunks from the chunk store yields the stored (valid) chunks
in storage order, truncated to `maxCount` when one is given; a missing store
file yields the empty sequence rather than an error; and a line that does not
parse is skipped without affecting the rest of the load. -/
theorem c7_rehydration_robustness :
    (∀ maxDocuments, extractDocumentsFromSparseStore none maxDocuments = []) ∧
    (∀ lines, extractDocumentsFromSparseStore (some lines) none =
      lines.filterMap lineDocument) ∧
    (∀ lines (m : Int), extractDocumentsFromSparseStore (some lines) (some m) =
      (lines.filterMap lineDocument).take (max 0 m).toNat) ∧
    (∀ pre post maxDocuments,
      extractDocumentsFromSparseStore (some (pre ++ .malformedLine :: post)) maxDocuments =
        extractDocumentsFromSparseStore (some (pre ++ post)) maxDocuments) := by
  refine ⟨fun _ => rfl, fun lines => ?_, fun lines m => ?_, fun pre post maxD => ?_⟩
  · simpa [extractDocumentsFromSparseStore] using extractLoop_limit_none lines 0
  · simpa [extractDocumentsFromSparseStore] using
      extractLoop_limit_some lines (max 0 m).toNat 0
  · have hskip : (pre ++ StoreLine.malformedLine :: post).filterMap lineDocument =
        (pre ++ post).filterMap lineDocument := by
      simp [List.filterMap_append, lineDocument]
    match maxD with
    | none =>
      simpa [extractDocumentsFromSparseStore, extractLoop_limit_none] using hskip
    | some m =>
      simp only [extractDocumentsFromSparseStore, Option.map]
      rw [extractLoop_limit_some, extractLoop_limit_some, hskip]

/-! ## C3 — `NotReady` and the empty corpus -/

theorem loadable_nil_of_no_nonblank {store : Option (List StoreLine)}
    (h : sparseStoreHasDocuments store = false) (m : Option Int) :
    extractDocumentsFromSparseStore store m = [] := by
  match store with
  | none => rfl
  | some lines =>
    have hall : ∀ l ∈ lines, lineDocument l = none := by
      intro l hl
      have hb : l.nonBlank = false := by
        by_contra hx
        have hx' : l.nonBlank = true := by revert hx; cases l.nonBlank <;> simp
        have : (lines.any StoreLine.nonBlank) = true := List.any_eq_true.mpr ⟨l, hl, hx'⟩
        rw [sparseStoreHasDocuments] at h
        rw [h] at this
        exact absurd this (by simp)
      match l with
      | .blankLine => rfl
      | .malformedLine => simp [StoreLine.nonBlank] at hb
      | .badRecord => simp [StoreLine.nonBlank] at hb
      | .record c meta => simp [StoreLine.nonBlank] at hb
    have hfm : lines.filterMap lineDocument = [] := by
      rw [List.filterMap_eq_nil]
      exact hall
    match m with
    | none =>
      show extractLoop lines none 0 = []
      rw [extractLoop_limit_none, hfm]
    | some mv =>
      show extractLoop lines (some (max 0 mv).toNat) 0 = []
      rw [extractLoop_limit_some, hfm, List.take_nil]

theorem maybeAdd_ne_nil (setting : Int) (docs chunks : List DocumentM)
    (hc : chunks ≠ []) :
    maybeAddDocumentsToBM25 true setting docs chunks ≠ [] := by
  unfold maybeAddDocumentsToBM25
  simp only [Bool.not_true, Bool.false_eq_true, if_false]
  rw [if_neg hc]
  have hext : 0 < (docs ++ chunks).length := by
    simp only [List.length_append]
    have := List.length_pos.mpr hc
    omega
  have hM := coercePositiveInt_pos (some setting) 5000 (by norm_num)
  by_cases hbig : (docs ++ chunks).length > coercePositiveInt (some setting) 5000
  · rw [if_pos hbig]
    intro hx
    have := congrArg List.length hx
    simp only [List.length_drop, List.length_nil] at this
    omega
  · rw [if_neg hbig]
    intro hx
    have := congrArg List.length hx
    simp only [List.length_nil] at this
    omega

/-- C3, counterexample to the claim as stated: with both retrieval backends
disabled in configuration, a document is ingested (the chunk store is non-empty
and loadable) and the very next retrieval still fails with a `NotReady`
error — so "after at least one document has been ingested, retrieval does not
raise NotReady" is false, and NotReady is not equivalent to an empty corpus. -/
theorem c3_claim_counterexample :
    (ingestChunks ⟨false, false, 5000⟩ ⟨none, false, [], false⟩ ⟨[], none⟩
        [sampleDoc "hello"]).1.store ≠ none ∧
    extractDocumentsFromSparseStore
      (ingestChunks ⟨false, false, 5000⟩ ⟨none, false, [], false⟩ ⟨[], none⟩
        [sampleDoc "hello"]).1.store none = [sampleDoc "hello"] ∧
    retrieveDocuments ⟨false, false, 5000⟩
      (ingestChunks ⟨false, false, 5000⟩ ⟨none, false, [], false⟩ ⟨[], none⟩
        [sampleDoc "hello"]).1
      (ingestChunks ⟨false, false, 5000⟩ ⟨none, false, [], false⟩ ⟨[], none⟩
        [sampleDoc "hello"]).2 3 3 1 = .error notReadyBuildMessage := by
  refine ⟨by decide, by decide, rfl⟩

/-- C3 (amended): when the sparse (BM25) index is enabled, (i) with dense
retrieval disabled, an empty corpus — no non-blank line in the chunk store,
empty in-memory index, no stale positive cache — makes retrieval fail with
`NotReady`; (ii) whenever the in-memory sparse index is non-empty or the store
rehydrates at least one chunk, retrieval does not fail; and (iii) immediately
after ingesting at least one chunk, retrieval does not fail.  (The claim's
unqualified equivalence fails when both backends are disabled, see the
counterexample.) -/
theorem c3_not_ready_amended (cfg : RetConfig) (w : RetWorld) (st : RetrieverState)
    (denseK bm25K : Nat) (dw : Rat) (hbm : cfg.bm25Enabled = true) :
    (cfg.denseEnabled = false → st.bm25Documents = [] →
      sparseStoreHasDocuments w.store = false → st.storeHasDocs ≠ some true →
      retrieveDocuments cfg w st denseK bm25K dw = .error notReadyInitMessage) ∧
    ((st.bm25Documents ≠ [] ∨
        extractDocumentsFromSparseStore w.store
          (some ((coercePositiveInt (some cfg.bm25MaxDocsSetting) 5000 : Nat) : Int)) ≠ []) →
      ∃ r st', retrieveDocuments cfg w st denseK bm25K dw = .ok (r, st')) ∧
    (∀ chunks : List DocumentM, chunks ≠ [] →
      ∃ r st', retrieveDocuments cfg
        (ingestChunks cfg w st chunks).1 (ingestChunks cfg w st chunks).2
        denseK bm25K dw = .ok (r, st')) := by
  have hbuild_ok : ∀ (emb : Bool) (docs : List DocumentM), docs ≠ [] →
      ∃ r, buildHybridRetriever cfg emb docs denseK bm25K dw = .ok r := by
    intro emb docs hne
    have huse : (cfg.bm25Enabled && !docs.isEmpty) = true := by
      simp [hbm, List.isEmpty_iff, hne]
    by_cases hda : (cfg.denseEnabled && emb) = true
    · exact ⟨.ensemble docs denseK bm25K dw, by simp [buildHybridRetriever, hda, huse]⟩
    · have hda' : (cfg.denseEnabled && emb) = false := by
        revert hda; cases (cfg.denseEnabled && emb) <;> simp
      exact ⟨.sparseOnly docs bm25K, by simp [buildHybridRetriever, hda', huse]⟩
  have hok_of_ne : ∀ (w' : RetWorld) (st' : RetrieverState), st'.bm25Documents ≠ [] →
      ∃ r st'', retrieveDocuments cfg w' st' denseK bm25K dw = .ok (r, st'') := by
    intro w' st' hne
    obtain ⟨r, hr⟩ := hbuild_ok w'.embeddingsPresent st'.bm25Documents hne
    refine ⟨r, st', ?_⟩
    have hempty : st'.bm25Documents.isEmpty = false := by
      simp [List.isEmpty_iff, hne]
    simp [retrieveDocuments, hempty, hr]
  refine ⟨?_, ?_, ?_⟩
  · intro hden hdocs hstore hcache
    have hmax : extractDocumentsFromSparseStore w.store
        (some ((coercePositiveInt (some cfg.bm25MaxDocsSetting) 5000 : Nat) : Int)) = [] :=
      loadable_nil_of_no_nonblank hstore _
    have hinit : initializeRetrieverFromDisk cfg w st = { st with bm25Documents := [] } := by
      simp [initializeRetrieverFromDisk, extractDocumentsFromStore, hbm, hden, hmax]
    have hdet : detectStoreHasDocuments cfg w = (false, some false) := by
      simp [detectStoreHasDocuments, hstore, hden]
    cases hshd : st.storeHasDocs with
    | none => simp [retrieveDocuments, hbm, hdocs, hinit, hdet, hshd]
    | some b =>
      cases b with
      | true => exact absurd hshd hcache
      | false => simp [retrieveDocuments, hbm, hdocs, hinit, hdet, hshd, hden]
  · intro hor
    by_cases hne : st.bm25Documents = []
    · have hload : extractDocumentsFromSparseStore w.store
          (some ((coercePositiveInt (some cfg.bm25MaxDocsSetting) 5000 : Nat) : Int)) ≠ [] := by
        rcases hor with h | h
        · exact absurd hne h
        · exact h
      have hinit : initializeRetrieverFromDisk cfg w st =
          { st with bm25Documents := (extractDocumentsFromSparseStore w.store
              (some ((coercePositiveInt (some cfg.bm25MaxDocsSetting) 5000 : Nat) : Int))) } := by
        simp [initializeRetrieverFromDisk, extractDocumentsFromStore, hbm, hload]
      obtain ⟨r, hr⟩ := hbuild_ok w.embeddingsPresent _ hload
      refine ⟨r, { st with bm25Documents := (extractDocumentsFromSparseStore w.store
          (some ((coercePositiveInt (some cfg.bm25MaxDocsSetting) 5000 : Nat) : Int))) }, ?_⟩
      have hempty2 : (extractDocumentsFromSparseStore w.store
          (some ((coercePositiveInt (some cfg.bm25MaxDocsSetting) 5000 : Nat) : Int))).isEmpty
            = false := by
        simp [List.isEmpty_iff, hload]
      simp [retrieveDocuments, hbm, hne, hinit, hempty2, hr]
    · exact hok_of_ne w st hne
  · intro chunks hc
    unfold ingestChunks
    rw [if_neg hc]
    refine hok_of_ne _ _ ?_
    show maybeAddDocumentsToBM25 cfg.bm25Enabled cfg.bm25MaxDocsSetting
      st.bm25Documents chunks ≠ []
    rw [hbm]
    exact maybeAdd_ne_nil _ _ _ hc

/-- Witness for C3: with BM25 enabled and dense disabled, the empty corpus gives
`NotReady`; a populated in-memory index retrieves; and retrieval succeeds right
after ingesting one chunk. -/
theorem c3_not_ready_amended_witness :
    retrieveDocuments ⟨true, false, 5000⟩ ⟨none, false, [], false⟩ ⟨[], none⟩ 3 3 1 =
      .error notReadyInitMessage ∧
    (∃ r st', retrieveDocuments ⟨true, false, 5000⟩ ⟨none, false, [], false⟩
      ⟨[sampleDoc "x"], some true⟩ 3 3 1 = .ok (r, st')) ∧
    (∃ r st', retrieveDocuments ⟨true, false, 5000⟩
      (ingestChunks ⟨true, false, 5000⟩ ⟨none, false, [], false⟩ ⟨[], none⟩
        [sampleDoc "y"]).1
      (ingestChunks ⟨true, false, 5000⟩ ⟨none, false, [], false⟩ ⟨[], none⟩
        [sampleDoc "y"]).2 3 3 1 = .ok (r, st')) :=
  ⟨(c3_not_ready_amended ⟨true, false, 5000⟩ ⟨none, false, [], false⟩ ⟨[], none⟩
      3 3 1 rfl).1 rfl rfl rfl (by decide),
    (c3_not_ready_amended ⟨true, false, 5000⟩ ⟨none, false, [], false⟩
      ⟨[sampleDoc "x"], some true⟩ 3 3 1 rfl).2.1 (Or.inl (by decide)),
    (c3_not_ready_amended ⟨true, false, 5000⟩ ⟨none, false, [], false⟩ ⟨[], none⟩
      3 3 1 rfl).2.2 [sampleDoc "y"] (by decide)⟩

/-! ## C8 — query reformulation fallback -/

/-- C8: with an empty chat history the reformulation step is skipped and the raw
query used unchanged; with history present, an empty or unparseable model reply
(anything whose extracted text strips to nothing) falls back to the raw query
unchanged. -/
theorem c8_reformulation_fallback {α : Type} (rawQuery : List Char)
    (chatHistory : List α) (modelReply : ContentVal) :
    (chatHistory = [] → reformulateQuery rawQuery chatHistory modelReply = rawQuery) ∧
    (pyStrip (extractTextFromContent modelReply) = [] →
      reformulateQuery rawQuery chatHistory modelReply = rawQuery) := by
  constructor
  · intro h
    subst h
    rfl
  · intro h
    unfold reformulateQuery
    by_cases hh : chatHistory.isEmpty
    · simp [hh]
    · simp [hh, h]

/-- Witness for C8: the empty-history branch on a non-empty reply, and the
empty-reply branch on a non-empty history (the reply strips to nothing). -/
theorem c8_reformulation_fallback_witness :
    reformulateQuery "q".toList ([] : List Unit) (.contentStr "r".toList) = "q".toList ∧
    reformulateQuery "q".toList [()] .contentOther = "q".toList :=
  ⟨(c8_reformulation_fallback "q".toList [] (.contentStr "r".toList)).1 rfl,
    (c8_reformulation_fallback "q".toList [()] .contentOther).2 (by decide)⟩

/-! ## C9 — session-history bounds and safe eviction -/

theorem trimHistory_length_le (h : List MsgM) :
    (trimHistory h).length ≤ maxChatHistoryMessagesPerSession := by
  unfold trimHistory
  by_cases hl : h.length > maxChatHistoryMessagesPerSession
  · rw [if_pos hl, List.length_drop]
    omega
  · rw [if_neg hl]
    omega

theorem evictSessions_short (s : SessionStore) (sid : String)
    (h : s.length ≤ maxInMemorySessions) : evictSessions s sid = s := by
  cases s with
  | nil => rfl
  | cons e rest =>
    unfold evictSessions
    rw [if_neg (Nat.not_lt.mpr h)]

theorem evictSessions_drop (s : SessionStore) (sid : String) :
    ∃ n, evictSessions s sid = s.drop n := by
  induction s with
  | nil => exact ⟨0, rfl⟩
  | cons e rest ih =>
    unfold evictSessions
    by_cases hl : (e :: rest).length > maxInMemorySessions
    · rw [if_pos hl]
      by_cases he : e.1 = sid
      · exact ⟨0, by rw [if_pos he, List.drop_zero]⟩
      · obtain ⟨n, hn⟩ := ih
        exact ⟨n + 1, by rw [if_neg he, hn, List.drop_succ_cons]⟩
    · rw [if_neg hl]
      exact ⟨0, rfl⟩

theorem evictSessions_mem (s : SessionStore) (sid : String) (h : List MsgM)
    (hm : (sid, h) ∈ s) : (sid, h) ∈ evictSessions s sid := by
  induction s with
  | nil => simp at hm
  | cons e rest ih =>
    unfold evictSessions
    by_cases hl : (e :: rest).length > maxInMemorySessions
    · rw [if_pos hl]
      by_cases he : e.1 = sid
      · rw [if_pos he]
        exact hm
      · rw [if_neg he]
        rcases List.mem_cons.mp hm with heq | hmem
        · exact absurd (by rw [← heq]) he
        · exact ih hmem
    · rw [if_neg hl]
      exact hm

theorem evictSessions_length (s : SessionStore) (sid : String)
    (h1 : s.length ≤ maxInMemorySessions + 1)
    (h2 : s.length > maxInMemorySessions → ∀ e ∈ s.take 1, e.1 ≠ sid) :
    (evictSessions s sid).length ≤ maxInMemorySessions := by
  cases s with
  | nil => simp [evictSessions]
  | cons e rest =>
    unfold evictSessions
    by_cases hl : (e :: rest).length > maxInMemorySessions
    · have hne : e.1 ≠ sid := h2 hl e (by simp)
      rw [if_pos hl, if_neg hne]
      have hrest : rest.length ≤ maxInMemorySessions := by
        simp only [List.length_cons] at h1
        omega
      rw [evictSessions_short rest sid hrest]
      exact hrest
    · rw [if_neg hl]
      exact Nat.not_lt.mp hl

theorem mem_setdefaultSession {store : SessionStore} {sid : String} {e}
    (he : e ∈ setdefaultSession store sid) : e ∈ store ∨ e = (sid, []) := by
  unfold setdefaultSession at he
  by_cases h : store.any (fun x => x.1 = sid)
  · left
    simpa [h] using he
  · exact (by simpa [h] using he : e ∈ store ∨ e = (sid, []))

/-- C9: one request's session bookkeeping keeps every session history within the
per-session message cap, keeps the total session count within the session cap,
evicts whole sessions oldest-first (the result is a suffix of the updated map,
in insertion order), and never evicts the session being written to. -/
theorem c9_session_bounds (store : SessionStore) (sid query answer : String)
    (hlen : store.length ≤ maxInMemorySessions)
    (hhist : ∀ e ∈ store, e.2.length ≤ maxChatHistoryMessagesPerSession) :
    (recordTurn store sid query answer).length ≤ maxInMemorySessions ∧
    (∀ e ∈ recordTurn store sid query answer,
      e.2.length ≤ maxChatHistoryMessagesPerSession) ∧
    (∃ h, (sid, h) ∈ recordTurn store sid query answer) ∧
    (∃ n, recordTurn store sid query answer =
      (updateSession (setdefaultSession store sid) sid
        (fun h => trimHistory (h ++ [.human query, .ai answer]))).drop n) := by
  set f : List MsgM → List MsgM :=
    fun h => trimHistory (h ++ [.human query, .ai answer]) with hf
  set mid : SessionStore := updateSession (setdefaultSession store sid) sid f with hmid
  have hrt : recordTurn store sid query answer = evictSessions mid sid := rfl
  have hmidlen : mid.length = (setdefaultSession store sid).length := by
    simp [hmid, updateSession]
  have hsdlen : (setdefaultSession store sid).length ≤ store.length + 1 := by
    unfold setdefaultSession
    by_cases h : store.any (fun x => x.1 = sid)
    · simp [h]
    · simp [h]
  have hmidhist : ∀ e ∈ mid, e.2.length ≤ maxChatHistoryMessagesPerSession := by
    intro e he
    rw [hmid] at he
    unfold updateSession at he
    obtain ⟨a, ha, hae⟩ := List.mem_map.mp he
    by_cases hkey : a.1 = sid
    · rw [if_pos hkey] at hae
      rw [← hae]
      exact trimHistory_length_le _
    · rw [if_neg hkey] at hae
      rcases mem_setdefaultSession ha with h1 | h2
      · rw [← hae]
        exact hhist a h1
      · exact absurd (by rw [h2]) hkey
  refine ⟨?_, ?_, ?_, ?_⟩
  · rw [hrt]
    refine evictSessions_length mid sid (by omega) ?_
    intro hbig e1 he1
    by_cases hin : store.any (fun x => x.1 = sid)
    · exfalso
      have : (setdefaultSession store sid).length = store.length := by
        simp [setdefaultSession, hin]
      omega
    · have hsd : setdefaultSession store sid = store ++ [(sid, [])] := by
        simp [setdefaultSession, hin]
      have hnotin : ∀ x ∈ store, ¬(x.1 = sid) := by
        intro x hx hxs
        have : store.any (fun x => x.1 = sid) = true :=
          List.any_eq_true.mpr ⟨x, hx, by simp [hxs]⟩
        exact hin this
      have hstorelen : store.length = maxInMemorySessions := by
        have hm1 : mid.length = store.length + 1 := by
          rw [hmidlen, hsd]
          simp
        omega
      have hne : store ≠ [] := by
        intro h0
        rw [h0] at hstorelen
        simp [maxInMemorySessions] at hstorelen
      obtain ⟨s0, srest, hst⟩ := List.exists_cons_of_ne_nil hne
      have hs0 : ¬(s0.1 = sid) := hnotin s0 (by rw [hst]; exact List.mem_cons_self _ _)
      have hmid0 : mid = s0 ::
          ((srest ++ [(sid, [])]).map
            (fun (e : String × List MsgM) => if e.1 = sid then (e.1, f e.2) else e)) := by
        rw [hmid, hsd, hst]
        simp [updateSession, hs0]
      rw [hmid0] at he1
      have he1' : e1 = s0 := by simpa using he1
      rw [he1']
      exact hs0
  · intro e he
    rw [hrt] at he
    obtain ⟨n, hn⟩ := evictSessions_drop mid sid
    rw [hn] at he
    exact hmidhist e (List.mem_of_mem_drop he)
  · by_cases hin : store.any (fun x => x.1 = sid)
    · obtain ⟨a, ha, hkey⟩ := List.any_eq_true.mp hin
      have hkey' : a.1 = sid := by simpa using hkey
      refine ⟨f a.2, ?_⟩
      rw [hrt]
      refine evictSessions_mem mid sid (f a.2) ?_
      rw [hmid]
      unfold updateSession
      refine List.mem_map.mpr ⟨a, ?_, ?_⟩
      · unfold setdefaultSession
        rw [if_pos hin]
        exact ha
      · rw [if_pos hkey', hkey']
    · refine ⟨f [], ?_⟩
      rw [hrt]
      refine evictSessions_mem mid sid (f []) ?_
      rw [hmid]
      unfold updateSession
      refine List.mem_map.mpr ⟨(sid, []), ?_, ?_⟩
      · unfold setdefaultSession
        rw [if_neg hin]
        exact List.mem_append_right _ (by simp)
      · simp
  · rw [hrt]
    exact evictSessions_drop mid sid

/-- Witness for C9 at a concrete store: one existing session, a new session
being written. -/
theorem c9_session_bounds_witness :
    (recordTurn [("s1", [])] "s2" "q" "a").length ≤ maxInMemorySessions ∧
    (∀ e ∈ recordTurn [("s1", [])] "s2" "q" "a",
      e.2.length ≤ maxChatHistoryMessagesPerSession) ∧
    (∃ h, ("s2", h) ∈ recordTurn [("s1", [])] "s2" "q" "a") ∧
    (∃ n, recordTurn [("s1", [])] "s2" "q" "a" =
      (updateSession (setdefaultSession [("s1", [])] "s2") "s2"
        (fun h => trimHistory (h ++ [.human "q", .ai "a"]))).drop n) :=
  c9_session_bounds [("s1", [])] "s2" "q" "a" (by simp [maxInMemorySessions])
    (by intro e he; simp at he; simp [he])

/-- Witness for C2 at a concrete ingestion sequence: cap 2, three ingested
chunks in three batches. -/
theorem c2_bounded_memory_fifo_witness :
    (∀ k, (ingestAll true 2
        ([[sampleDoc "a"], [sampleDoc "b"], [sampleDoc "c"]].take k)).length ≤ 2) ∧
    (([[sampleDoc "a"], [sampleDoc "b"], [sampleDoc "c"]] :
        List (List DocumentM)).flatten.length > 2 →
      ingestAll true 2 [[sampleDoc "a"], [sampleDoc "b"], [sampleDoc "c"]] =
        ([[sampleDoc "a"], [sampleDoc "b"], [sampleDoc "c"]] :
          List (List DocumentM)).flatten.drop
          (([[sampleDoc "a"], [sampleDoc "b"], [sampleDoc "c"]] :
            List (List DocumentM)).flatten.length - 2) ∧
      (ingestAll true 2 [[sampleDoc "a"], [sampleDoc "b"], [sampleDoc "c"]]).length = 2) :=
  c2_bounded_memory_fifo 2 2 rfl [[sampleDoc "a"], [sampleDoc "b"], [sampleDoc "c"]]

end DocuMind
